import Mathlib

/-!
# libmicroblt — verification of the S-record reader and the XCP master

A shallow embedding of the two core modules of the libmicroblt firmware-update
library, together with proofs about them:

* `source/xcploader.c` — the XCP v1.0 master protocol engine.  The module
  globals (`xcpConnected`, `xcpSlaveIsIntel`, `xcpMaxCto`, `xcpMaxProgCto`,
  `xcpMaxDto`) become the fields of `XcpState`.  The transport port is
  modelled at exchange granularity: every `XcpExchangePacket` call transmits
  one request (recorded in `Machine.sent`) and consumes one entry of
  `Machine.pending`, which is the environment's scripted answer — `some p`
  for a response packet, `none` for a timeout or transmission failure.  The
  C timeout arithmetic (`SystemGetTime` polling) is below this granularity
  and therefore does not appear.  Machine integers are `Nat`; where the C
  performs wrapping unsigned arithmetic the model reduces modulo the same
  power of two explicitly.

* `source/srecreader.c` — the Motorola S-record reader.  A file is a list of
  lines (each a `List Char`, as delivered by `f_gets`); file positions are
  line indices.  Characters read past the end of a stored line are modelled
  as NUL, matching the terminator `f_gets` writes.  The segment linked list
  (MicroTBX `TbxList`) becomes a `List SRecSegment`; `TbxListSortItems` with
  `SRecReaderCompareSegments` (swap when `item1->addr > item2->addr`) is an
  ascending sort by base address, modelled with `List.insertionSort`.
-/

namespace MicroBlt

/-! ## XCP packets and machine state (`source/xcploader.c`, `source/port.h`) -/

/-- An XCP packet: the first `len` bytes of the C `tPortXcpPacket`. -/
abbrev Packet := List Nat

/-- `PORT_XCP_PACKET_SIZE_MAX` from `source/port.h`. -/
def PORT_XCP_PACKET_SIZE_MAX : Nat := 255

/-- The XCP session state: the module globals of `source/xcploader.c`.
`connectMode` is the only field of `tXcpLoaderSettings` that reaches the
wire; the timeouts select polling bounds below the model's granularity. -/
structure XcpState where
  connected    : Bool
  slaveIsIntel : Bool
  maxCto       : Nat
  maxProgCto   : Nat
  maxDto       : Nat
  connectMode  : Nat
deriving Repr, DecidableEq

/-- The whole machine: session state, the packets handed to
`XcpTransmitPacket` so far (oldest first) and the environment's scripted
outcome of each future `XcpExchangePacket` call. -/
structure Machine where
  xcp     : XcpState
  sent    : List Packet
  pending : List (Option Packet)
deriving Repr, DecidableEq

/-- The state `XcpLoaderInit` establishes. -/
def xcpInitState (mode : Nat) : XcpState :=
  { connected := false, slaveIsIntel := false, maxCto := 0, maxProgCto := 0,
    maxDto := 0, connectMode := mode }

/-- A fresh machine with a scripted environment. -/
def initMachine (pending : List (Option Packet)) (mode : Nat) : Machine :=
  { xcp := xcpInitState mode, sent := [], pending := pending }

/-- `XcpExchangePacket`: transmit one request, receive the environment's
scripted answer (`none` covers both a transmit failure and a response
timeout — in either case the C function returns `TBX_ERROR`). -/
def XcpExchangePacket (m : Machine) (req : Packet) : Machine × Option Packet :=
  ({ m with sent := m.sent ++ [req], pending := m.pending.tail },
   m.pending.headD none)

/-- `XcpLoaderSetOrderedLong`: store a 32-bit value in the slave's byte
order. -/
def xcpLoaderSetOrderedLong (intel : Bool) (value : Nat) : List Nat :=
  if intel then
    [value % 256, value / 2 ^ 8 % 256, value / 2 ^ 16 % 256, value / 2 ^ 24 % 256]
  else
    [value / 2 ^ 24 % 256, value / 2 ^ 16 % 256, value / 2 ^ 8 % 256, value % 256]

/-! ## XCP command functions

Each `XcpLoaderSendCmdX` builds its request packet, performs one exchange
and validates the response, returning `true` for `TBX_OK`.  Request-packet
builders are separate definitions so that theorems can name them. -/

/-- The CONNECT request packet (`XCPLOADER_CMD_CONNECT`, mode byte). -/
def connectPacket (mode : Nat) : Packet := [0xFF, mode]

/-- The `maxDto` value decoded from a CONNECT response in the byte order the
response itself announces in bit 0 of its `commMode` byte. -/
def connectRespDto (p : Packet) : Nat :=
  if p.getD 2 0 % 2 = 0 then p.getD 4 0 + p.getD 5 0 * 256
  else p.getD 5 0 + p.getD 4 0 * 256

/-- `XcpLoaderSendCmdConnect`.  Note the order of operations in the C code:
on a well-formed positive response the globals `xcpSlaveIsIntel`,
`xcpMaxCto`, `xcpMaxProgCto` and `xcpMaxDto` are all assigned *before* the
`xcpMaxDto > PORT_XCP_PACKET_SIZE_MAX` and zero-size checks can fail. -/
def xcpLoaderSendCmdConnect (m : Machine) : Machine × Bool :=
  match XcpExchangePacket m (connectPacket m.xcp.connectMode) with
  | (m1, none) => (m1, false)
  | (m1, some p) =>
    if p.length ≠ 8 ∨ p.getD 0 0 ≠ 0xFF then (m1, false)
    else
      let intel := p.getD 2 0 % 2 = 0
      let cto := p.getD 3 0
      let dto := connectRespDto p
      let ctoClamped := if PORT_XCP_PACKET_SIZE_MAX < cto then PORT_XCP_PACKET_SIZE_MAX else cto
      let st := { m1.xcp with slaveIsIntel := intel, maxCto := ctoClamped,
                              maxProgCto := cto, maxDto := dto }
      (⟨st, m1.sent, m1.pending⟩,
       ¬(PORT_XCP_PACKET_SIZE_MAX < dto ∨ ctoClamped = 0 ∨ dto = 0))

/-- `XcpLoaderSendCmdGetStatus`; the extra `Nat` is the out parameter
`protectedResources` (left at the caller's `0` on failure). -/
def xcpLoaderSendCmdGetStatus (m : Machine) : Machine × Bool × Nat :=
  match XcpExchangePacket m [0xFD] with
  | (m1, none) => (m1, false, 0)
  | (m1, some p) =>
    if p.length ≠ 6 ∨ p.getD 0 0 ≠ 0xFF then (m1, false, 0)
    else (m1, true, p.getD 2 0)

/-- `XcpLoaderSendCmdProgramStart`: on a positive response `xcpMaxProgCto`
is replaced by the announced value, clamped to the packet ceiling. -/
def xcpLoaderSendCmdProgramStart (m : Machine) : Machine × Bool :=
  match XcpExchangePacket m [0xD2] with
  | (m1, none) => (m1, false)
  | (m1, some p) =>
    if p.length ≠ 7 ∨ p.getD 0 0 ≠ 0xFF then (m1, false)
    else
      let pc := p.getD 3 0
      let pc' := if PORT_XCP_PACKET_SIZE_MAX < pc then PORT_XCP_PACKET_SIZE_MAX else pc
      (⟨{ m1.xcp with maxProgCto := pc' }, m1.sent, m1.pending⟩, true)

/-- The PROGRAM RESET request packet. -/
def programResetPacket : Packet := [0xCF]

/-- `XcpLoaderSendCmdProgramReset`: a missing response is *not* an error;
only a malformed received response is. -/
def xcpLoaderSendCmdProgramReset (m : Machine) : Machine × Bool :=
  match XcpExchangePacket m programResetPacket with
  | (m1, none) => (m1, true)
  | (m1, some p) => (m1, p.length = 1 ∧ p.getD 0 0 = 0xFF)

/-- The PROGRAM request packet: command byte, payload length, payload. -/
def programPacket (len : Nat) (data : List Nat) : Packet :=
  0xD0 :: len :: data.take len

/-- `XcpLoaderSendCmdProgram`.  The C guard is
`len <= (xcpMaxProgCto-2U)` where `xcpMaxProgCto` is a `uint16_t` promoted
into *unsigned int* arithmetic, so for `xcpMaxProgCto < 2` the subtraction
wraps around `2^32` and the guard accepts every `len`. -/
def xcpLoaderSendCmdProgram (m : Machine) (len : Nat) (data : List Nat) :
    Machine × Bool :=
  if len ≤ (m.xcp.maxProgCto + 2 ^ 32 - 2) % 2 ^ 32 ∧
     m.xcp.maxProgCto ≤ PORT_XCP_PACKET_SIZE_MAX then
    match XcpExchangePacket m (programPacket len data) with
    | (m1, none) => (m1, false)
    | (m1, some p) => (m1, p.length = 1 ∧ p.getD 0 0 = 0xFF)
  else (m, false)

/-- The PROGRAM MAX request packet: command byte plus `maxProgCto - 1`
payload bytes.  (For `maxProgCto = 0` the C copy loop would overrun the
request buffer — undefined behaviour; the `Nat` subtraction copies nothing
there, a benign reading never exercised by the theorems below.) -/
def programMaxPacket (maxProgCto : Nat) (data : List Nat) : Packet :=
  0xC9 :: data.take (maxProgCto - 1)

/-- `XcpLoaderSendCmdProgramMax`. -/
def xcpLoaderSendCmdProgramMax (m : Machine) (data : List Nat) : Machine × Bool :=
  if m.xcp.maxProgCto ≤ PORT_XCP_PACKET_SIZE_MAX then
    match XcpExchangePacket m (programMaxPacket m.xcp.maxProgCto data) with
    | (m1, none) => (m1, false)
    | (m1, some p) => (m1, p.length = 1 ∧ p.getD 0 0 = 0xFF)
  else (m, false)

/-- The SET MTA request packet: command, reserved, reserved, address
extension 0, then the 32-bit address in the negotiated byte order. -/
def setMtaPacket (intel : Bool) (address : Nat) : Packet :=
  0xF6 :: 0 :: 0 :: 0 :: xcpLoaderSetOrderedLong intel address

/-- `XcpLoaderSendCmdSetMta`. -/
def xcpLoaderSendCmdSetMta (m : Machine) (address : Nat) : Machine × Bool :=
  match XcpExchangePacket m (setMtaPacket m.xcp.slaveIsIntel address) with
  | (m1, none) => (m1, false)
  | (m1, some p) => (m1, p.length = 1 ∧ p.getD 0 0 = 0xFF)

/-- The PROGRAM CLEAR request packet (absolute mode). -/
def programClearPacket (intel : Bool) (len : Nat) : Packet :=
  0xD1 :: 0 :: 0 :: 0 :: xcpLoaderSetOrderedLong intel len

/-- `XcpLoaderSendCmdProgramClear`. -/
def xcpLoaderSendCmdProgramClear (m : Machine) (len : Nat) : Machine × Bool :=
  match XcpExchangePacket m (programClearPacket m.xcp.slaveIsIntel len) with
  | (m1, none) => (m1, false)
  | (m1, some p) => (m1, p.length = 1 ∧ p.getD 0 0 = 0xFF)

/-- `XcpLoaderSendCmdUpload`; the returned list is the data copied into the
caller's buffer on success. -/
def xcpLoaderSendCmdUpload (m : Machine) (len : Nat) : Machine × Bool × List Nat :=
  if 0 < len ∧ len < m.xcp.maxDto then
    match XcpExchangePacket m [0xF5, len] with
    | (m1, none) => (m1, false, [])
    | (m1, some p) =>
      if p.length = 0 ∨ p.getD 0 0 ≠ 0xFF then (m1, false, [])
      else (m1, true, (p.drop 1).take len)
  else (m, false, [])

/-! ## XCP session operations -/

/-- `XcpLoaderStop`: when connected, terminate programming with
PROGRAM(len 0) and — only if that succeeded — send PROGRAM RESET (whose
result is discarded); in every case the connection flag is cleared.  The C
function returns `void`: no error can propagate out of it. -/
def xcpLoaderStop (m : Machine) : Machine :=
  if m.xcp.connected then
    let r := xcpLoaderSendCmdProgram m 0 []
    let m2 := if r.2 then (xcpLoaderSendCmdProgramReset r.1).1 else r.1
    ⟨{ m2.xcp with connected := false }, m2.sent, m2.pending⟩
  else m

/-- The CONNECT retry loop of `XcpLoaderStart` (`XCPLOADER_CONNECT_RETRIES`
attempts); on the first success the connection flag is raised. -/
def startConnectLoop : Nat → Machine → Machine × Bool
  | 0, m => (m, false)
  | n + 1, m =>
    let r := xcpLoaderSendCmdConnect m
    if r.2 then (⟨{ r.1.xcp with connected := true }, r.1.sent, r.1.pending⟩, true)
    else startConnectLoop n r.1

/-- `XCPLOADER_RESOURCE_PGM`; its bit test `res & 0x10 != 0` is modelled as
`res % 32 / 16 ≠ 0`. -/
def XCPLOADER_RESOURCE_PGM : Nat := 0x10

/-- `XcpLoaderStart`: stop any previous session, connect with retries, read
the resource protection status, refuse a locked PGM resource (seed/key is
unimplemented), then enter programming mode. -/
def xcpLoaderStart (m0 : Machine) : Machine × Bool :=
  let r1 := startConnectLoop 5 (xcpLoaderStop m0)
  if !r1.2 then (r1.1, false)
  else
    let r2 := xcpLoaderSendCmdGetStatus r1.1
    if !r2.2.1 then (r2.1, false)
    else if r2.2.2 % 32 / 16 ≠ 0 then (r2.1, false)
    else xcpLoaderSendCmdProgramStart r2.1

/-- `XcpLoaderClearMemory`: SET MTA then PROGRAM CLEAR. -/
def xcpLoaderClearMemory (m : Machine) (address len : Nat) : Machine × Bool :=
  if 0 < len ∧ m.xcp.connected = true then
    let r := xcpLoaderSendCmdSetMta m address
    if r.2 then xcpLoaderSendCmdProgramClear r.1 len else (r.1, false)
  else (m, false)

/-- The segmented-programming loop of `XcpLoaderWriteData`.  One fuel unit
per iteration; the theorems use `remaining.length` fuel, which is enough
whenever `maxProgCto ≥ 2` (each iteration then programs at least one byte —
for `maxProgCto = 1` the C computes `len % 0`, undefined behaviour). -/
def xcpWriteLoop : Nat → Machine → List Nat → Machine × Bool
  | 0, m, _ => (m, false)
  | fuel + 1, m, remaining =>
    let cnt0 := remaining.length % ((m.xcp.maxProgCto + 2 ^ 32 - 1) % 2 ^ 32) % 256
    let cnt := if cnt0 = 0 then (m.xcp.maxProgCto + 255) % 256 else cnt0
    let r := if cnt0 = 0 then xcpLoaderSendCmdProgramMax m remaining
             else xcpLoaderSendCmdProgram m cnt0 (remaining.take cnt0)
    if ¬r.2 then (r.1, false)
    else if remaining.length - cnt = 0 then (r.1, true)
    else xcpWriteLoop fuel r.1 (remaining.drop cnt)

/-- `XcpLoaderWriteData`: SET MTA, then the segmented-programming loop. -/
def xcpLoaderWriteData (m : Machine) (address : Nat) (data : List Nat) :
    Machine × Bool :=
  if 0 < data.length ∧ m.xcp.connected = true ∧
     m.xcp.maxProgCto ≤ PORT_XCP_PACKET_SIZE_MAX then
    let r := xcpLoaderSendCmdSetMta m address
    if r.2 then xcpWriteLoop data.length r.1 data else (r.1, false)
  else (m, false)

/-- The segmented-upload loop of `XcpLoaderReadData` (same fuel discipline
as `xcpWriteLoop`). -/
def xcpReadLoop : Nat → Machine → Nat → List Nat → Machine × Bool × List Nat
  | 0, m, _, acc => (m, false, acc)
  | fuel + 1, m, remaining, acc =>
    let cnt0 := remaining % ((m.xcp.maxDto + 2 ^ 32 - 1) % 2 ^ 32) % 256
    let cnt := if cnt0 = 0 then (m.xcp.maxDto + 255) % 256 else cnt0
    let r := xcpLoaderSendCmdUpload m cnt
    if ¬r.2.1 then (r.1, false, acc ++ r.2.2)
    else if remaining - cnt = 0 then (r.1, true, acc ++ r.2.2)
    else xcpReadLoop fuel r.1 (remaining - cnt) (acc ++ r.2.2)

/-- `XcpLoaderReadData`: SET MTA, then the segmented-upload loop. -/
def xcpLoaderReadData (m : Machine) (address len : Nat) :
    Machine × Bool × List Nat :=
  if 0 < len ∧ m.xcp.connected = true ∧ m.xcp.maxDto ≤ PORT_XCP_PACKET_SIZE_MAX then
    let r := xcpLoaderSendCmdSetMta m address
    if r.2 then xcpReadLoop len r.1 len [] else (r.1, false, [])
  else (m, false, [])

/-- The session states reachable by any sequence of loader operations, each
run against an arbitrary scripted environment. -/
inductive XcpReachable : XcpState → Prop
  | init (mode : Nat) : XcpReachable (xcpInitState mode)
  | start (s : XcpState) (pending : List (Option Packet)) :
      XcpReachable s → XcpReachable (xcpLoaderStart ⟨s, [], pending⟩).1.xcp
  | stop (s : XcpState) (pending : List (Option Packet)) :
      XcpReachable s → XcpReachable (xcpLoaderStop ⟨s, [], pending⟩).xcp
  | clear (s : XcpState) (pending : List (Option Packet)) (address len : Nat) :
      XcpReachable s → XcpReachable (xcpLoaderClearMemory ⟨s, [], pending⟩ address len).1.xcp
  | write (s : XcpState) (pending : List (Option Packet)) (address : Nat) (data : List Nat) :
      XcpReachable s → XcpReachable (xcpLoaderWriteData ⟨s, [], pending⟩ address data).1.xcp
  | read (s : XcpState) (pending : List (Option Packet)) (address len : Nat) :
      XcpReachable s → XcpReachable (xcpLoaderReadData ⟨s, [], pending⟩ address len).1.xcp


/-! ## XCP helper lemmas -/

theorem exchange_xcp (m : Machine) (req : Packet) :
    (XcpExchangePacket m req).1.xcp = m.xcp := rfl

theorem setMta_xcp (m : Machine) (address : Nat) :
    (xcpLoaderSendCmdSetMta m address).1.xcp = m.xcp := by
  rcases m with ⟨x, s, pend⟩
  cases pend with
  | nil => rfl
  | cons r rest => cases r <;> rfl

theorem programClear_xcp (m : Machine) (len : Nat) :
    (xcpLoaderSendCmdProgramClear m len).1.xcp = m.xcp := by
  rcases m with ⟨x, s, pend⟩
  cases pend with
  | nil => rfl
  | cons r rest => cases r <;> rfl

theorem program_xcp (m : Machine) (len : Nat) (data : List Nat) :
    (xcpLoaderSendCmdProgram m len data).1.xcp = m.xcp := by
  rcases m with ⟨x, s, pend⟩
  unfold xcpLoaderSendCmdProgram
  split
  · cases pend with
    | nil => rfl
    | cons r rest => cases r <;> rfl
  · rfl

theorem programMax_xcp (m : Machine) (data : List Nat) :
    (xcpLoaderSendCmdProgramMax m data).1.xcp = m.xcp := by
  rcases m with ⟨x, s, pend⟩
  unfold xcpLoaderSendCmdProgramMax
  split
  · cases pend with
    | nil => rfl
    | cons r rest => cases r <;> rfl
  · rfl

theorem programReset_xcp (m : Machine) :
    (xcpLoaderSendCmdProgramReset m).1.xcp = m.xcp := by
  rcases m with ⟨x, s, pend⟩
  cases pend with
  | nil => rfl
  | cons r rest => cases r <;> rfl

theorem getStatus_xcp (m : Machine) :
    (xcpLoaderSendCmdGetStatus m).1.xcp = m.xcp := by
  rcases m with ⟨x, s, pend⟩
  cases pend with
  | nil => rfl
  | cons r rest =>
    cases r with
    | none => rfl
    | some p =>
      simp only [xcpLoaderSendCmdGetStatus, XcpExchangePacket, List.headD, List.tail]
      split <;> rfl

theorem upload_xcp (m : Machine) (len : Nat) :
    (xcpLoaderSendCmdUpload m len).1.xcp = m.xcp := by
  rcases m with ⟨x, s, pend⟩
  unfold xcpLoaderSendCmdUpload
  split
  · cases pend with
    | nil => rfl
    | cons r rest =>
      cases r with
      | none => rfl
      | some p =>
        simp only [XcpExchangePacket, List.headD, List.tail]
        split <;> rfl
  · rfl

/-- CONNECT never touches the connection flag (that is `XcpLoaderStart`'s
job). -/
theorem connect_connected (m : Machine) :
    (xcpLoaderSendCmdConnect m).1.xcp.connected = m.xcp.connected := by
  rcases m with ⟨x, s, pend⟩
  cases pend with
  | nil => rfl
  | cons r rest =>
    cases r with
    | none => rfl
    | some p =>
      simp only [xcpLoaderSendCmdConnect, XcpExchangePacket, List.headD, List.tail]
      split <;> rfl

/-- A CONNECT that reports success has stored a nonzero `maxCto` and a
nonzero `maxDto` no larger than the packet ceiling. -/
theorem connect_ok_bounds (m : Machine) (h : (xcpLoaderSendCmdConnect m).2 = true) :
    1 ≤ (xcpLoaderSendCmdConnect m).1.xcp.maxCto ∧
    1 ≤ (xcpLoaderSendCmdConnect m).1.xcp.maxDto ∧
    (xcpLoaderSendCmdConnect m).1.xcp.maxDto ≤ PORT_XCP_PACKET_SIZE_MAX := by
  rcases m with ⟨x, s, pend⟩
  cases pend with
  | nil => cases h
  | cons r rest =>
    cases r with
    | none => cases h
    | some p =>
      simp only [xcpLoaderSendCmdConnect, XcpExchangePacket, List.headD, List.tail] at h ⊢
      revert h
      split
      · intro h; cases h
      · intro h
        simp only [decide_eq_true_eq] at h
        push_neg at h
        simp only [PORT_XCP_PACKET_SIZE_MAX] at *
        by_cases hc : (255 : Nat) < p.getD 3 0 <;>
          simp [hc] at h ⊢ <;> omega

theorem programStart_connected (m : Machine) :
    (xcpLoaderSendCmdProgramStart m).1.xcp.connected = m.xcp.connected ∧
    (xcpLoaderSendCmdProgramStart m).1.xcp.maxCto = m.xcp.maxCto ∧
    (xcpLoaderSendCmdProgramStart m).1.xcp.maxDto = m.xcp.maxDto := by
  rcases m with ⟨x, s, pend⟩
  cases pend with
  | nil => exact ⟨rfl, rfl, rfl⟩
  | cons r rest =>
    cases r with
    | none => exact ⟨rfl, rfl, rfl⟩
    | some p =>
      simp only [xcpLoaderSendCmdProgramStart, XcpExchangePacket, List.headD, List.tail]
      split <;> exact ⟨rfl, rfl, rfl⟩

/-- After `XcpLoaderStop` the session is always disconnected. -/
theorem stop_connected (m : Machine) : (xcpLoaderStop m).xcp.connected = false := by
  unfold xcpLoaderStop
  split
  · rfl
  · simp_all

/-- The CONNECT retry loop: on failure the connection flag is untouched; on
success the final state is connected with the bounds CONNECT guarantees. -/
theorem startConnectLoop_spec (n : Nat) : ∀ m : Machine,
    ((startConnectLoop n m).2 = false →
      (startConnectLoop n m).1.xcp.connected = m.xcp.connected) ∧
    ((startConnectLoop n m).2 = true →
      (startConnectLoop n m).1.xcp.connected = true ∧
      1 ≤ (startConnectLoop n m).1.xcp.maxCto ∧
      1 ≤ (startConnectLoop n m).1.xcp.maxDto) := by
  induction n with
  | zero => intro m; simp [startConnectLoop]
  | succ n ih =>
    intro m
    by_cases hok : (xcpLoaderSendCmdConnect m).2 = true
    · have hb := connect_ok_bounds m hok
      constructor
      · intro hfalse
        simp [startConnectLoop, hok] at hfalse
      · intro _
        simp only [startConnectLoop, hok, if_pos]
        exact ⟨trivial, hb.1, hb.2.1⟩
    · rw [Bool.not_eq_true] at hok
      have hc := connect_connected m
      constructor
      · intro hfalse
        simp only [startConnectLoop, hok, Bool.false_eq_true, if_neg, not_false_eq_true] at hfalse ⊢
        exact ((ih _).1 hfalse).trans hc
      · intro htrue
        simp only [startConnectLoop, hok, Bool.false_eq_true, if_neg, not_false_eq_true] at htrue ⊢
        exact (ih _).2 htrue

/-- If `XcpLoaderStart` leaves the session connected then the sizes CONNECT
negotiated are nonzero. -/
theorem start_invariant (m : Machine)
    (h : (xcpLoaderStart m).1.xcp.connected = true) :
    1 ≤ (xcpLoaderStart m).1.xcp.maxCto ∧ 1 ≤ (xcpLoaderStart m).1.xcp.maxDto := by
  unfold xcpLoaderStart at h ⊢
  by_cases hloop : (startConnectLoop 5 (xcpLoaderStop m)).2 = true
  · have hspec := (startConnectLoop_spec 5 (xcpLoaderStop m)).2 hloop
    simp only [hloop, Bool.not_true, Bool.false_eq_true, if_neg, not_false_eq_true] at h ⊢
    have hgs := getStatus_xcp (startConnectLoop 5 (xcpLoaderStop m)).1
    by_cases hst : (xcpLoaderSendCmdGetStatus (startConnectLoop 5 (xcpLoaderStop m)).1).2.1 = true
    · simp only [hst, Bool.not_true, Bool.false_eq_true, if_neg, not_false_eq_true] at h ⊢
      have hps := programStart_connected (xcpLoaderSendCmdGetStatus (startConnectLoop 5 (xcpLoaderStop m)).1).1
      by_cases hpr : (xcpLoaderSendCmdGetStatus (startConnectLoop 5 (xcpLoaderStop m)).1).2.2 % 32 / 16 ≠ 0
      · rw [if_pos hpr]
        simpa [hgs] using ⟨hspec.2.1, hspec.2.2⟩
      · rw [if_neg hpr]
        rw [hps.2.1, hps.2.2, hgs]
        exact ⟨hspec.2.1, hspec.2.2⟩
    · rw [Bool.not_eq_true] at hst
      simp only [hst, Bool.not_false, if_pos] at h ⊢
      rw [hgs] at h ⊢
      exact ⟨hspec.2.1, hspec.2.2⟩
  · rw [Bool.not_eq_true] at hloop
    simp only [hloop, Bool.not_false, if_pos] at h
    rw [(startConnectLoop_spec 5 (xcpLoaderStop m)).1 hloop, stop_connected] at h
    cases h

theorem clearMemory_xcp (m : Machine) (address len : Nat) :
    (xcpLoaderClearMemory m address len).1.xcp = m.xcp := by
  simp only [xcpLoaderClearMemory]
  split
  · split
    · rw [programClear_xcp, setMta_xcp]
    · rw [setMta_xcp]
  · rfl

theorem writeLoop_xcp (fuel : Nat) : ∀ (m : Machine) (remaining : List Nat),
    (xcpWriteLoop fuel m remaining).1.xcp = m.xcp := by
  induction fuel with
  | zero => intro m remaining; rfl
  | succ fuel ih =>
    intro m remaining
    simp only [xcpWriteLoop]
    split
    · split
      · simp [programMax_xcp]
      · split
        · simp [programMax_xcp]
        · simp [ih, programMax_xcp]
    · split
      · simp [program_xcp]
      · split
        · simp [program_xcp]
        · simp [ih, program_xcp]

theorem writeData_xcp (m : Machine) (address : Nat) (data : List Nat) :
    (xcpLoaderWriteData m address data).1.xcp = m.xcp := by
  simp only [xcpLoaderWriteData]
  split
  · split
    · rw [writeLoop_xcp, setMta_xcp]
    · rw [setMta_xcp]
  · rfl

theorem readLoop_xcp (fuel : Nat) : ∀ (m : Machine) (remaining : Nat) (acc : List Nat),
    (xcpReadLoop fuel m remaining acc).1.xcp = m.xcp := by
  induction fuel with
  | zero => intro m remaining acc; rfl
  | succ fuel ih =>
    intro m remaining acc
    simp only [xcpReadLoop]
    split
    · split
      · simp [upload_xcp]
      · split
        · simp [upload_xcp]
        · simp [ih, upload_xcp]
    · split
      · simp [upload_xcp]
      · split
        · simp [upload_xcp]
        · simp [ih, upload_xcp]

theorem readData_xcp (m : Machine) (address len : Nat) :
    (xcpLoaderReadData m address len).1.xcp = m.xcp := by
  simp only [xcpLoaderReadData]
  split
  · split
    · rw [readLoop_xcp, setMta_xcp]
    · rw [setMta_xcp]
  · rfl

/-! ## Claim C3 — CONNECT with an oversized `maxDto` -/

/-- C3 counterexample: a CONNECT response announcing `maxDto = 300`
(`> MAX_PACKET = 255`) makes the command fail, but — contrary to the claim
that "no session state is updated" — `max_dto` does *not* keep its prior
value `0`: the decoded `300` (and likewise the other negotiated fields) is
stored before the range check fails. -/
theorem c3_counterexample :
    (xcpLoaderSendCmdConnect (initMachine [some [255, 0, 0, 8, 44, 1, 1, 1]] 0)).2 = false ∧
    (initMachine [some [255, 0, 0, 8, 44, 1, 1, 1]] 0).xcp.maxDto = 0 ∧
    (xcpLoaderSendCmdConnect (initMachine [some [255, 0, 0, 8, 44, 1, 1, 1]] 0)).1.xcp.maxDto = 300 := by
  decide

/-- C3 (amended): when the CONNECT response is well formed (8 bytes,
positive PID) but announces `maxDto > MAX_PACKET`, the command fails and
the session does not become connected; however `slave_intel`, `max_cto`,
`max_prog_cto` and `max_dto` are overwritten with the values decoded from
the response (`max_cto` clamped) rather than keeping their prior values. -/
theorem c3_amended (m : Machine) (p : Packet)
    (hp : m.pending.headD none = some p)
    (hlen : p.length = 8) (hpid : p.getD 0 0 = 0xFF)
    (hdto : PORT_XCP_PACKET_SIZE_MAX < connectRespDto p) :
    (xcpLoaderSendCmdConnect m).2 = false ∧
    (xcpLoaderSendCmdConnect m).1.xcp.connected = m.xcp.connected ∧
    (xcpLoaderSendCmdConnect m).1.xcp.maxDto = connectRespDto p ∧
    (xcpLoaderSendCmdConnect m).1.xcp.maxProgCto = p.getD 3 0 ∧
    (xcpLoaderSendCmdConnect m).1.xcp.maxCto =
      (if PORT_XCP_PACKET_SIZE_MAX < p.getD 3 0 then PORT_XCP_PACKET_SIZE_MAX else p.getD 3 0) ∧
    (xcpLoaderSendCmdConnect m).1.xcp.slaveIsIntel = decide (p.getD 2 0 % 2 = 0) := by
  rcases m with ⟨x, s, pend⟩
  cases pend with
  | nil => cases hp
  | cons r rest =>
    simp only [List.headD] at hp
    subst hp
    simp only [xcpLoaderSendCmdConnect, XcpExchangePacket, List.headD, List.tail]
    rw [if_neg (by push_neg; exact ⟨hlen, hpid⟩)]
    refine ⟨?_, rfl, rfl, rfl, rfl, rfl⟩
    simp only [decide_eq_false_iff_not]
    intro hcontra
    exact hcontra (Or.inl hdto)

/-- C3 witness: the amended theorem applied to a fresh machine receiving a
well-formed CONNECT response that announces `maxDto = 300`. -/
theorem c3_witness :
    (xcpLoaderSendCmdConnect (initMachine [some [255, 0, 0, 8, 44, 1, 1, 1]] 0)).2 = false ∧
    (xcpLoaderSendCmdConnect (initMachine [some [255, 0, 0, 8, 44, 1, 1, 1]] 0)).1.xcp.connected =
      (initMachine [some [255, 0, 0, 8, 44, 1, 1, 1]] 0).xcp.connected ∧
    (xcpLoaderSendCmdConnect (initMachine [some [255, 0, 0, 8, 44, 1, 1, 1]] 0)).1.xcp.maxDto =
      connectRespDto [255, 0, 0, 8, 44, 1, 1, 1] ∧
    (xcpLoaderSendCmdConnect (initMachine [some [255, 0, 0, 8, 44, 1, 1, 1]] 0)).1.xcp.maxProgCto =
      List.getD [255, 0, 0, 8, 44, 1, 1, 1] 3 0 ∧
    (xcpLoaderSendCmdConnect (initMachine [some [255, 0, 0, 8, 44, 1, 1, 1]] 0)).1.xcp.maxCto =
      (if PORT_XCP_PACKET_SIZE_MAX < List.getD [255, 0, 0, 8, 44, 1, 1, 1] 3 0
       then PORT_XCP_PACKET_SIZE_MAX else List.getD [255, 0, 0, 8, 44, 1, 1, 1] 3 0) ∧
    (xcpLoaderSendCmdConnect (initMachine [some [255, 0, 0, 8, 44, 1, 1, 1]] 0)).1.xcp.slaveIsIntel =
      decide (List.getD [255, 0, 0, 8, 44, 1, 1, 1] 2 0 % 2 = 0) :=
  c3_amended (initMachine [some [255, 0, 0, 8, 44, 1, 1, 1]] 0) [255, 0, 0, 8, 44, 1, 1, 1]
    (by decide) (by decide) (by decide) (by decide)

/-! ## Claim C4 — the `connected ⇒ max_cto ≥ 2 ∧ max_dto ≥ 2` invariant -/

/-- C4 counterexample: CONNECT only rejects `maxCto`/`maxDto` of `0`, so a
response announcing `maxCto = 1, maxDto = 2` leaves a *reachable* session
state with `connected = true` and `max_cto = 1`, refuting the claimed
invariant `connected ⇒ max_cto ≥ 2`. -/
theorem c4_counterexample :
    XcpReachable (xcpLoaderStart (initMachine [some [255, 0, 0, 1, 2, 0, 1, 1]] 0)).1.xcp ∧
    (xcpLoaderStart (initMachine [some [255, 0, 0, 1, 2, 0, 1, 1]] 0)).1.xcp.connected = true ∧
    (xcpLoaderStart (initMachine [some [255, 0, 0, 1, 2, 0, 1, 1]] 0)).1.xcp.maxCto = 1 :=
  ⟨XcpReachable.start _ _ (XcpReachable.init 0), by decide, by decide⟩

/-- C4 (amended): in every reachable session state,
`connected ⇒ max_cto ≥ 1 ∧ max_dto ≥ 1` — the code guarantees the
negotiated sizes are nonzero, but not that they are at least 2. -/
theorem c4_amended (s : XcpState) (hs : XcpReachable s) (hc : s.connected = true) :
    1 ≤ s.maxCto ∧ 1 ≤ s.maxDto := by
  induction hs with
  | init mode => simp [xcpInitState] at hc
  | start s pending _ _ => exact start_invariant _ hc
  | stop s pending _ _ => rw [stop_connected] at hc; cases hc
  | clear s pending address len hr ih => rw [clearMemory_xcp] at hc ⊢; exact ih hc
  | write s pending address data hr ih => rw [writeData_xcp] at hc ⊢; exact ih hc
  | read s pending address len hr ih => rw [readData_xcp] at hc ⊢; exact ih hc

/-- C4 witness: the amended invariant applied to a concrete reachable
connected state (reached by a `Start` whose CONNECT response announced
`maxCto = 1, maxDto = 2`). -/
theorem c4_witness :
    (xcpLoaderStart (initMachine [some [255, 0, 0, 1, 2, 0, 1, 1]] 0)).1.xcp.connected = true ∧
    1 ≤ (xcpLoaderStart (initMachine [some [255, 0, 0, 1, 2, 0, 1, 1]] 0)).1.xcp.maxCto ∧
    1 ≤ (xcpLoaderStart (initMachine [some [255, 0, 0, 1, 2, 0, 1, 1]] 0)).1.xcp.maxDto :=
  ⟨by decide,
   c4_amended _ (XcpReachable.start _ _ (XcpReachable.init 0)) (by decide)⟩

/-! ## Claim C7 — behaviour of `XcpLoaderStop` -/

/-- C7 counterexample: a connected session whose PROGRAM(0) gets no
response.  `Stop` transmits only the PROGRAM(0) packet and never issues
PROGRAM_RESET — contrary to the claim that it "issues PROGRAM with length 0
and then issues PROGRAM_RESET" whenever invoked while connected (the
session still ends Disconnected). -/
theorem c7_counterexample :
    (⟨⟨true, true, 8, 8, 8, 0⟩, [], [none]⟩ : Machine).xcp.connected = true ∧
    (xcpLoaderStop ⟨⟨true, true, 8, 8, 8, 0⟩, [], [none]⟩).sent = [[0xD0, 0]] ∧
    programResetPacket ∉ (xcpLoaderStop ⟨⟨true, true, 8, 8, 8, 0⟩, [], [none]⟩).sent ∧
    (xcpLoaderStop ⟨⟨true, true, 8, 8, 8, 0⟩, [], [none]⟩).xcp.connected = false := by
  decide

/-- On a positive single-byte `0xFF` response, PROGRAM succeeds and appends
exactly its request packet to the transmit log. -/
theorem program_ok_step (m : Machine) (len : Nat) (data : List Nat) (r : Packet)
    (hg1 : len ≤ (m.xcp.maxProgCto + 2 ^ 32 - 2) % 2 ^ 32)
    (hg2 : m.xcp.maxProgCto ≤ PORT_XCP_PACKET_SIZE_MAX)
    (hr : m.pending.headD none = some r) (hrlen : r.length = 1)
    (hrpid : r.getD 0 0 = 0xFF) :
    xcpLoaderSendCmdProgram m len data =
      (⟨m.xcp, m.sent ++ [programPacket len data], m.pending.tail⟩, true) := by
  rcases m with ⟨x, s, pend⟩
  cases pend with
  | nil => cases hr
  | cons q rest =>
    simp only [List.headD] at hr
    subst hr
    unfold xcpLoaderSendCmdProgram
    rw [if_pos ⟨hg1, hg2⟩]
    simp [XcpExchangePacket, hrlen, hrpid]
    exact (List.getD_eq_getElem r 0 (by omega)).symm.trans hrpid

/-- On a positive single-byte `0xFF` response, PROGRAM MAX succeeds and
appends exactly its request packet to the transmit log. -/
theorem programMax_ok_step (m : Machine) (data : List Nat) (r : Packet)
    (hg : m.xcp.maxProgCto ≤ PORT_XCP_PACKET_SIZE_MAX)
    (hr : m.pending.headD none = some r) (hrlen : r.length = 1)
    (hrpid : r.getD 0 0 = 0xFF) :
    xcpLoaderSendCmdProgramMax m data =
      (⟨m.xcp, m.sent ++ [programMaxPacket m.xcp.maxProgCto data], m.pending.tail⟩, true) := by
  rcases m with ⟨x, s, pend⟩
  cases pend with
  | nil => cases hr
  | cons q rest =>
    simp only [List.headD] at hr
    subst hr
    unfold xcpLoaderSendCmdProgramMax
    rw [if_pos hg]
    simp [XcpExchangePacket, hrlen, hrpid]
    exact (List.getD_eq_getElem r 0 (by omega)).symm.trans hrpid

/-- On a positive single-byte `0xFF` response, SET MTA succeeds and appends
exactly its request packet to the transmit log. -/
theorem setMta_ok_step (m : Machine) (address : Nat) (r : Packet)
    (hr : m.pending.headD none = some r) (hrlen : r.length = 1)
    (hrpid : r.getD 0 0 = 0xFF) :
    xcpLoaderSendCmdSetMta m address =
      (⟨m.xcp, m.sent ++ [setMtaPacket m.xcp.slaveIsIntel address], m.pending.tail⟩, true) := by
  rcases m with ⟨x, s, pend⟩
  cases pend with
  | nil => cases hr
  | cons q rest =>
    simp only [List.headD] at hr
    subst hr
    unfold xcpLoaderSendCmdSetMta
    simp [XcpExchangePacket, hrlen, hrpid]
    exact (List.getD_eq_getElem r 0 (by omega)).symm.trans hrpid

/-- PROGRAM RESET always appends exactly its request packet to the
transmit log, whatever the response. -/
theorem programReset_step (m : Machine) :
    (xcpLoaderSendCmdProgramReset m).1 =
      ⟨m.xcp, m.sent ++ [programResetPacket], m.pending.tail⟩ := by
  rcases m with ⟨x, s, pend⟩
  cases pend with
  | nil => rfl
  | cons q rest => cases q <;> rfl

/-- C7 (amended): `Stop` never propagates an error (it is a `void`
function, total in the model) and always ends Disconnected; from a
disconnected state it does nothing; from a connected state it issues
PROGRAM(0) and — only if that command receives a positive response — then
issues PROGRAM_RESET (whose own response may be absent). -/
theorem c7_amended (m : Machine) :
    (xcpLoaderStop m).xcp.connected = false ∧
    (m.xcp.connected = false → xcpLoaderStop m = m) ∧
    (m.xcp.connected = true → m.xcp.maxProgCto ≤ PORT_XCP_PACKET_SIZE_MAX →
      ∀ r, m.pending.headD none = some r → r.length = 1 → r.getD 0 0 = 0xFF →
        (xcpLoaderStop m).sent = m.sent ++ [programPacket 0 [], programResetPacket]) := by
  refine ⟨stop_connected m, ?_, ?_⟩
  · intro hnc
    unfold xcpLoaderStop
    rw [if_neg (by simp [hnc])]
  · intro hc hcto r hr hrlen hrpid
    unfold xcpLoaderStop
    rw [if_pos hc]
    rw [program_ok_step m 0 [] r (Nat.zero_le _) hcto hr hrlen hrpid]
    simp only [if_pos]
    rw [programReset_step]
    simp

/-- C7 witness: the amended theorem applied to a connected machine whose
PROGRAM(0) is answered positively and whose PROGRAM_RESET gets no response
at all. -/
theorem c7_witness :
    (xcpLoaderStop ⟨⟨true, true, 8, 8, 8, 0⟩, [], [some [0xFF]]⟩).xcp.connected = false ∧
    ((⟨⟨true, true, 8, 8, 8, 0⟩, [], [some [0xFF]]⟩ : Machine).xcp.connected = false →
      xcpLoaderStop ⟨⟨true, true, 8, 8, 8, 0⟩, [], [some [0xFF]]⟩ =
        ⟨⟨true, true, 8, 8, 8, 0⟩, [], [some [0xFF]]⟩) ∧
    ((⟨⟨true, true, 8, 8, 8, 0⟩, [], [some [0xFF]]⟩ : Machine).xcp.connected = true →
      (⟨⟨true, true, 8, 8, 8, 0⟩, [], [some [0xFF]]⟩ : Machine).xcp.maxProgCto ≤ PORT_XCP_PACKET_SIZE_MAX →
      ∀ r, (⟨⟨true, true, 8, 8, 8, 0⟩, [], [some [0xFF]]⟩ : Machine).pending.headD none = some r →
        r.length = 1 → r.getD 0 0 = 0xFF →
        (xcpLoaderStop ⟨⟨true, true, 8, 8, 8, 0⟩, [], [some [0xFF]]⟩).sent =
          (⟨⟨true, true, 8, 8, 8, 0⟩, [], [some [0xFF]]⟩ : Machine).sent ++
            [programPacket 0 [], programResetPacket]) :=
  c7_amended ⟨⟨true, true, 8, 8, 8, 0⟩, [], [some [0xFF]]⟩

/-! ## Claim C8 — PROGRAM refuses oversized payloads -/

/-- C8 counterexample: in the *reachable* connected state with
`max_prog_cto = 1` (see the C4 counterexample) a PROGRAM with a 1-byte
payload has `len > max_prog_cto - 2`, yet the C guard
`len <= (xcpMaxProgCto-2U)` wraps around `2^32` and accepts it: the packet
*is* transmitted and the command even succeeds. -/
theorem c8_counterexample :
    XcpReachable (xcpLoaderStart (initMachine [some [255, 0, 0, 1, 2, 0, 1, 1]] 0)).1.xcp ∧
    (xcpLoaderStart (initMachine [some [255, 0, 0, 1, 2, 0, 1, 1]] 0)).1.xcp.maxProgCto - 2 < 1 ∧
    (xcpLoaderSendCmdProgram
      ⟨(xcpLoaderStart (initMachine [some [255, 0, 0, 1, 2, 0, 1, 1]] 0)).1.xcp, [], [some [0xFF]]⟩
      1 [0xAA]).2 = true ∧
    (xcpLoaderSendCmdProgram
      ⟨(xcpLoaderStart (initMachine [some [255, 0, 0, 1, 2, 0, 1, 1]] 0)).1.xcp, [], [some [0xFF]]⟩
      1 [0xAA]).1.sent = [[0xD0, 1, 0xAA]] :=
  ⟨XcpReachable.start _ _ (XcpReachable.init 0), by decide, by decide, by decide⟩

/-- C8 (amended): provided `max_prog_cto ≥ 2` (so that the unsigned
subtraction in the guard does not wrap), every PROGRAM whose payload length
exceeds `max_prog_cto - 2` fails and leaves the machine untouched — in
particular nothing is transmitted to the transport. -/
theorem c8_amended (m : Machine) (len : Nat) (data : List Nat)
    (hconn : m.xcp.connected = true)
    (h2 : 2 ≤ m.xcp.maxProgCto) (h16 : m.xcp.maxProgCto < 2 ^ 16)
    (hlen : m.xcp.maxProgCto - 2 < len) :
    xcpLoaderSendCmdProgram m len data = (m, false) := by
  unfold xcpLoaderSendCmdProgram
  rw [if_neg]
  intro hcontra
  have hmod : (m.xcp.maxProgCto + 2 ^ 32 - 2) % 2 ^ 32 = m.xcp.maxProgCto - 2 := by
    omega
  rw [hmod] at hcontra
  omega

/-- C8 witness: the amended theorem applied to a connected session with
`max_prog_cto = 8` and a 7-byte payload (7 > 8 − 2): the command fails with
no packet transmitted. -/
theorem c8_witness :
    xcpLoaderSendCmdProgram ⟨⟨true, true, 8, 8, 8, 0⟩, [], [some [0xFF]]⟩ 7 [1, 2, 3, 4, 5, 6, 7] =
      (⟨⟨true, true, 8, 8, 8, 0⟩, [], [some [0xFF]]⟩, false) :=
  c8_amended ⟨⟨true, true, 8, 8, 8, 0⟩, [], [some [0xFF]]⟩ 7 [1, 2, 3, 4, 5, 6, 7]
    (by decide) (by decide) (by decide) (by decide)

/-! ## Claim C6 — bulk-write command sequence -/

/-- The bulk-write command sequence exactly as the specification words it
(for comparison with the code's `XcpLoaderWriteData` loop): with
`P = max_prog_cto − 1`, repeatedly take `N = remaining mod P`; if `N = 0`
(and bytes remain) issue PROGRAM_MAX with exactly `P` bytes, else PROGRAM
with `N` bytes. -/
def specWriteSequence (P : Nat) (data : List Nat) : List Packet :=
  if h : data.length = 0 ∨ P = 0 then []
  else if hN : data.length % P = 0 then
    (0xC9 :: data.take P) :: specWriteSequence P (data.drop P)
  else
    (0xD0 :: data.length % P :: data.take (data.length % P)) ::
      specWriteSequence P (data.drop (data.length % P))
termination_by data.length
decreasing_by
  · push_neg at h
    have hdvd : P ∣ data.length := Nat.dvd_of_mod_eq_zero hN
    have hle : P ≤ data.length := Nat.le_of_dvd (by omega) hdvd
    simp only [List.length_drop]
    omega
  · push_neg at h
    have h1 : 0 < data.length % P := by omega
    have h2 : data.length % P ≤ data.length := Nat.mod_le _ _
    simp only [List.length_drop]
    omega

/-- The write loop matches the specification's chunking rule: against an
environment of all-positive responses, with `max_prog_cto = P + 1`
(`1 ≤ P`, `P + 1 ≤ MAX_PACKET`), programming `remaining` issues exactly
`specWriteSequence P remaining` and succeeds. -/
theorem writeLoop_spec (n : Nat) : ∀ (remaining : List Nat) (m : Machine) (P fuel : Nat),
    remaining.length = n →
    1 ≤ P → m.xcp.maxProgCto = P + 1 → P + 1 ≤ 255 →
    remaining ≠ [] → remaining.length ≤ fuel →
    (∀ r ∈ m.pending, r = some [0xFF]) → remaining.length ≤ m.pending.length →
    (xcpWriteLoop fuel m remaining).2 = true ∧
    (xcpWriteLoop fuel m remaining).1.sent = m.sent ++ specWriteSequence P remaining := by
  induction n using Nat.strong_induction_on with
  | _ n ih =>
    intro remaining m P fuel hn hP hcto hmax hne hfuel hpend hplen
    have hlen0 : 0 < remaining.length := List.length_pos.mpr hne
    have hfpos : 0 < fuel := Nat.lt_of_lt_of_le hlen0 hfuel
    obtain ⟨fuel, rfl⟩ : ∃ f, fuel = f + 1 := ⟨fuel - 1, by omega⟩
    have hpendne : m.pending ≠ [] := by
      intro hcontra
      rw [hcontra] at hplen
      simp only [List.length_nil, Nat.le_zero] at hplen
      omega
    obtain ⟨q, rest, hq⟩ : ∃ q rest, m.pending = q :: rest := by
      cases hp : m.pending with
      | nil => exact absurd hp hpendne
      | cons a b => exact ⟨a, b, rfl⟩
    have hqval : q = some [0xFF] := hpend q (by rw [hq]; exact List.mem_cons_self _ _)
    have hhead : m.pending.headD none = some [0xFF] := by rw [hq, hqval]; rfl
    have hwrap1 : (m.xcp.maxProgCto + 2 ^ 32 - 1) % 2 ^ 32 = P := by
      rw [hcto]; omega
    have hmodsmall : remaining.length % P < 256 := by
      have := Nat.mod_lt remaining.length (show 0 < P by omega)
      omega
    have hcnt0 : remaining.length % ((m.xcp.maxProgCto + 2 ^ 32 - 1) % 2 ^ 32) % 256 =
        remaining.length % P := by
      rw [hwrap1, Nat.mod_eq_of_lt hmodsmall]
    simp only [xcpWriteLoop, hcnt0]
    by_cases hz : remaining.length % P = 0
    · -- PROGRAM_MAX path
      have hPle : P ≤ remaining.length :=
        Nat.le_of_dvd hlen0 (Nat.dvd_of_mod_eq_zero hz)
      have hcntP : (m.xcp.maxProgCto + 255) % 256 = P := by
        rw [hcto]; omega
      rw [if_pos hz, if_pos hz, hcntP,
          programMax_ok_step m remaining [0xFF] (by simp only [PORT_XCP_PACKET_SIZE_MAX]; omega) hhead rfl rfl]
      have hpkt : programMaxPacket m.xcp.maxProgCto remaining = 0xC9 :: remaining.take P := by
        unfold programMaxPacket
        rw [hcto]
        simp
      rw [specWriteSequence]
      rw [dif_neg (by omega), dif_pos hz]
      by_cases hdone : remaining.length - P = 0
      · rw [if_neg (by simp), if_pos hdone]
        have hdrop : remaining.drop P = [] := by
          apply List.eq_nil_of_length_eq_zero
          simp only [List.length_drop]
          omega
        rw [hdrop, specWriteSequence]
        simp [hpkt]
      · rw [if_neg (by simp), if_neg hdone]
        have hrec := ih (remaining.length - P) (by omega) (remaining.drop P)
          ⟨m.xcp, m.sent ++ [programMaxPacket m.xcp.maxProgCto remaining], m.pending.tail⟩
          P fuel (by simp) hP hcto hmax
          (by intro hcontra
              have := congrArg List.length hcontra
              simp at this
              omega)
          (by simp only [List.length_drop]; omega)
          (by intro r hrr
              exact hpend r (List.mem_of_mem_tail hrr))
          (by rw [hq]; simp only [List.length_drop, List.tail_cons]
              rw [hq] at hplen
              simp at hplen
              omega)
        refine ⟨hrec.1, ?_⟩
        rw [hrec.2]
        simp [hpkt]
    · -- PROGRAM path
      have hcnt1 : 0 < remaining.length % P := by omega
      have hcntle : remaining.length % P ≤ remaining.length := Nat.mod_le _ _
      have hwrap2 : (m.xcp.maxProgCto + 2 ^ 32 - 2) % 2 ^ 32 = P - 1 := by
        rw [hcto]; omega
      have hguard : remaining.length % P ≤ (m.xcp.maxProgCto + 2 ^ 32 - 2) % 2 ^ 32 := by
        rw [hwrap2]
        have := Nat.mod_lt remaining.length (show 0 < P by omega)
        omega
      rw [if_neg hz, if_neg hz,
          program_ok_step m (remaining.length % P) (remaining.take (remaining.length % P))
            [0xFF] hguard (by simp only [PORT_XCP_PACKET_SIZE_MAX]; omega) hhead rfl rfl]
      have hpkt : programPacket (remaining.length % P) (remaining.take (remaining.length % P)) =
          0xD0 :: remaining.length % P :: remaining.take (remaining.length % P) := by
        unfold programPacket
        rw [List.take_take, Nat.min_self]
      rw [specWriteSequence]
      rw [dif_neg (by omega), dif_neg hz]
      by_cases hdone : remaining.length - remaining.length % P = 0
      · rw [if_neg (by simp), if_pos hdone]
        have hdrop : remaining.drop (remaining.length % P) = [] := by
          apply List.eq_nil_of_length_eq_zero
          simp only [List.length_drop]
          omega
        rw [hdrop, specWriteSequence]
        simp [hpkt]
      · rw [if_neg (by simp), if_neg hdone]
        have hrec := ih (remaining.length - remaining.length % P) (by omega)
          (remaining.drop (remaining.length % P))
          ⟨m.xcp, m.sent ++ [programPacket (remaining.length % P)
            (remaining.take (remaining.length % P))], m.pending.tail⟩
          P fuel (by simp) hP hcto hmax
          (by intro hcontra
              have := congrArg List.length hcontra
              simp at this
              omega)
          (by simp only [List.length_drop]; omega)
          (by intro r hrr
              exact hpend r (List.mem_of_mem_tail hrr))
          (by rw [hq]; simp only [List.length_drop, List.tail_cons]
              rw [hq] at hplen
              simp at hplen
              omega)
        refine ⟨hrec.1, ?_⟩
        rw [hrec.2]
        simp [hpkt]

/-- C6 (as claimed): for a connected session with `max_prog_cto = P + 1`
and a non-empty buffer, against an all-positive environment, `WriteData`
succeeds and its traffic after SET_MTA is exactly the specification's
chunking rule `specWriteSequence P data`: take `N = remaining mod P`; if
`N = 0` use PROGRAM_MAX with `P` bytes, else PROGRAM with `N` bytes. -/
theorem c6_write_sequence (s : XcpState) (sent0 : List Packet)
    (pending : List (Option Packet)) (address P : Nat) (data : List Nat)
    (hP : 1 ≤ P) (hcto : s.maxProgCto = P + 1) (hmax : P + 1 ≤ 255)
    (hconn : s.connected = true) (hdata : data ≠ [])
    (hpend : ∀ r ∈ pending, r = some [0xFF])
    (hpendlen : data.length + 1 ≤ pending.length) :
    (xcpLoaderWriteData ⟨s, sent0, pending⟩ address data).2 = true ∧
    (xcpLoaderWriteData ⟨s, sent0, pending⟩ address data).1.sent =
      sent0 ++ setMtaPacket s.slaveIsIntel address :: specWriteSequence P data := by
  have hpendne : pending ≠ [] := by
    intro hcontra
    rw [hcontra] at hpendlen
    simp at hpendlen
  obtain ⟨q, rest, hq⟩ : ∃ q rest, pending = q :: rest := by
    cases hp : pending with
    | nil => exact absurd hp hpendne
    | cons a b => exact ⟨a, b, rfl⟩
  have hhead : (⟨s, sent0, pending⟩ : Machine).pending.headD none = some [0xFF] := by
    have := hpend q (by rw [hq]; exact List.mem_cons_self _ _)
    simp only [hq, this]
    rfl
  simp only [xcpLoaderWriteData]
  rw [if_pos ⟨List.length_pos.mpr hdata, hconn,
      by simp only [PORT_XCP_PACKET_SIZE_MAX]; omega⟩]
  rw [setMta_ok_step _ address [0xFF] hhead rfl rfl]
  simp only [if_pos]
  have hloop := writeLoop_spec data.length data
    ⟨s, sent0 ++ [setMtaPacket s.slaveIsIntel address], pending.tail⟩
    P data.length rfl hP hcto hmax hdata le_rfl
    (by intro r hrr
        exact hpend r (List.mem_of_mem_tail hrr))
    (by rw [hq]
        rw [hq] at hpendlen
        simp only [List.tail_cons]
        simp at hpendlen
        omega)
  refine ⟨hloop.1, ?_⟩
  rw [hloop.2]
  simp

/-- C6 witness: `max_prog_cto = 8`, an 18-byte write at `0x8000` — the
traffic is SET_MTA, PROGRAM(4 bytes 0..3), PROGRAM_MAX(bytes 4..10),
PROGRAM_MAX(bytes 11..17), exactly scenario 5 of the specification. -/
theorem c6_witness :
    ((xcpLoaderWriteData ⟨⟨true, true, 8, 8, 8, 0⟩, [], List.replicate 19 (some [0xFF])⟩
        0x8000 (List.range 18)).2 = true ∧
     (xcpLoaderWriteData ⟨⟨true, true, 8, 8, 8, 0⟩, [], List.replicate 19 (some [0xFF])⟩
        0x8000 (List.range 18)).1.sent =
       [] ++ setMtaPacket true 0x8000 :: specWriteSequence 7 (List.range 18)) ∧
    specWriteSequence 7 (List.range 18) =
      [[0xD0, 4, 0, 1, 2, 3],
       [0xC9, 4, 5, 6, 7, 8, 9, 10],
       [0xC9, 11, 12, 13, 14, 15, 16, 17]] :=
  ⟨c6_write_sequence ⟨true, true, 8, 8, 8, 0⟩ [] (List.replicate 19 (some [0xFF]))
      0x8000 7 (List.range 18) (by decide) (by decide) (by decide) (by decide)
      (by decide) (by decide) (by decide),
   by simp [specWriteSequence]; decide⟩

/-! ## S-record reader (`source/srecreader.c`)

A file is the list of its lines, each a `List Char` as stored by `f_gets`
(terminators may be present; character positions past the stored line read
as NUL, the terminator `f_gets` writes).  File positions are line
indices. -/

/-- `SRecReaderHexStringToByte`'s conversion table: a hexadecimal ASCII
character's 4-bit value; any other character is left at `0`. -/
def hexCharVal : Char → Nat
  | '0' => 0 | '1' => 1 | '2' => 2 | '3' => 3 | '4' => 4
  | '5' => 5 | '6' => 6 | '7' => 7 | '8' => 8 | '9' => 9
  | 'a' => 10 | 'A' => 10 | 'b' => 11 | 'B' => 11 | 'c' => 12
  | 'C' => 12 | 'd' => 13 | 'D' => 13 | 'e' => 14 | 'E' => 14
  | 'f' => 15 | 'F' => 15
  | _ => 0

/-- Read one character of a line; past the stored characters the C buffer
holds the NUL terminator written by `f_gets`. -/
def lineGetChar (line : List Char) (i : Nat) : Char :=
  line.getD i (Char.ofNat 0)

/-- `SRecReaderHexStringToByte`: the byte value of the two characters at
positions `i, i+1`. -/
def hexStringToByte (line : List Char) (i : Nat) : Nat :=
  16 * hexCharVal (lineGetChar line i) + hexCharVal (lineGetChar line (i + 1))

/-- The S-record line types distinguished by `SRecReaderGetLineType`. -/
inductive SRecLineType where
  | s1
  | s2
  | s3
  | unsupported
deriving Repr, DecidableEq

/-- `SRecReaderGetLineType`. -/
def srecGetLineType (line : List Char) : SRecLineType :=
  if lineGetChar line 0 = 's' ∨ lineGetChar line 0 = 'S' then
    if lineGetChar line 1 = '1' then .s1
    else if lineGetChar line 1 = '2' then .s2
    else if lineGetChar line 1 = '3' then .s3
    else .unsupported
  else .unsupported

/-- The number of iterations of `SRecReaderVerifyChecksum`'s do-while loop:
the loop body runs at least once, decrements the `uint8_t` byte counter
(wrapping at 0) and repeats while it exceeds 1 — so `b - 1` iterations for
`b ≥ 2`, one for `b = 1`, and 255 for `b = 0` (the counter wraps). -/
def checksumIterations (b : Nat) : Nat :=
  if b = 0 then 255 else max (b - 1) 1

/-- `SRecReaderVerifyChecksum`: sum the byte count and the following
`iterations` byte pairs into a `uint8_t`, take the one's complement, and
compare with the next byte pair. -/
def srecVerifyChecksum (line : List Char) : Bool :=
  let b := hexStringToByte line 2
  let iters := checksumIterations b
  let sum := b + ((List.range iters).map fun k => hexStringToByte line (4 + 2 * k)).sum
  255 - sum % 256 = hexStringToByte line (4 + 2 * iters)

/-- `n` payload bytes extracted as consecutive hex pairs starting at
character position `start`. -/
def payloadBytes (line : List Char) (start n : Nat) : List Nat :=
  (List.range n).map fun k => hexStringToByte line (start + 2 * k)

/-- The outcome of parsing one line: a data record (S1/S2/S3 line), or a
successfully skipped non-data line. -/
inductive ParsedLine where
  | dataRec (addr : Nat) (data : List Nat)
  | noData
deriving Repr, DecidableEq

/-- `SRecReaderParseLine`: `none` is `TBX_ERROR` (bad checksum or a byte
count inconsistent with the line type's minimum); non-S1/S2/S3 lines parse
successfully with no data.  The address is assembled from 2/3/4 byte pairs
for S1/S2/S3 and the payload length is the byte count minus the address
and checksum bytes. -/
def srecParseLine (line : List Char) : Option ParsedLine :=
  match srecGetLineType line with
  | .unsupported => some .noData
  | .s1 =>
    if srecVerifyChecksum line then
      if 3 < hexStringToByte line 2 then
        some (.dataRec (hexStringToByte line 4 * 2 ^ 8 + hexStringToByte line 6)
          (payloadBytes line 8 (hexStringToByte line 2 - 3)))
      else none
    else none
  | .s2 =>
    if srecVerifyChecksum line then
      if 4 < hexStringToByte line 2 then
        some (.dataRec (hexStringToByte line 4 * 2 ^ 16 + hexStringToByte line 6 * 2 ^ 8 +
            hexStringToByte line 8)
          (payloadBytes line 10 (hexStringToByte line 2 - 4)))
      else none
    else none
  | .s3 =>
    if srecVerifyChecksum line then
      if 5 < hexStringToByte line 2 then
        some (.dataRec (hexStringToByte line 4 * 2 ^ 24 + hexStringToByte line 6 * 2 ^ 16 +
            hexStringToByte line 8 * 2 ^ 8 + hexStringToByte line 10)
          (payloadBytes line 12 (hexStringToByte line 2 - 5)))
      else none
    else none

/-- A firmware segment (`tSRecSegment`): base address, byte length, and the
file position (line index) of its first record. -/
structure SRecSegment where
  addr : Nat
  len  : Nat
  fptr : Nat
deriving Repr, DecidableEq

/-- The address one past a segment's last byte. -/
def segEnd (s : SRecSegment) : Nat := s.addr + s.len

/-- The state of `SRecReaderFileOpen`'s line loop: the segment list built
so far and the index of the segment the C `segment` pointer designates. -/
structure OpenState where
  segs : List SRecSegment
  cur  : Option Nat
deriving Repr, DecidableEq

/-- The slow path of segment construction: search the whole list for a
segment ending exactly at `a` and extend it, else append a fresh segment
`{a, n, idx}` to the back of the list. -/
def openStepSearch (segs : List SRecSegment) (a n idx : Nat) : OpenState :=
  match segs.findIdx? (fun s => segEnd s == a) with
  | some j =>
    match segs.get? j with
    | some s => ⟨segs.set j { s with len := s.len + n }, some j⟩
    | none => ⟨segs, none⟩
  | none => ⟨segs ++ [⟨a, n, idx⟩], some segs.length⟩

/-- One data record `(a, n)` read at line `idx` during `FileOpen`: extend
the current segment when the record starts at its end (the fast path),
else fall back to `openStepSearch`. -/
def openStep (st : OpenState) (a n idx : Nat) : OpenState :=
  match st.cur with
  | some i =>
    match st.segs.get? i with
    | some s =>
      if segEnd s = a then ⟨st.segs.set i { s with len := s.len + n }, some i⟩
      else openStepSearch st.segs a n idx
    | none => openStepSearch st.segs a n idx
  | none => openStepSearch st.segs a n idx

/-- `SRecReaderFileOpen`'s line loop from line index `idx`: parse every
line, feed each data record to `openStep`, abort on the first parse
error. -/
def srecFileOpenAux : List (List Char) → Nat → OpenState → Option OpenState
  | [], _, st => some st
  | l :: rest, idx, st =>
    match srecParseLine l with
    | none => none
    | some .noData => srecFileOpenAux rest (idx + 1) st
    | some (.dataRec a d) => srecFileOpenAux rest (idx + 1) (openStep st a d.length idx)

/-- The segment order `SRecReaderCompareSegments` establishes (ascending
base address). -/
def segLE (s t : SRecSegment) : Prop := s.addr ≤ t.addr

instance : DecidableRel segLE := fun s t => Nat.decLe s.addr t.addr

instance : IsTotal SRecSegment segLE := ⟨fun s t => Nat.le_total s.addr t.addr⟩

instance : IsTrans SRecSegment segLE := ⟨fun _ _ _ h1 h2 => Nat.le_trans h1 h2⟩

/-- `SRecReaderFileOpen`: read and parse all lines, collect the segments,
then sort them by base address (`TbxListSortItems` with
`SRecReaderCompareSegments`). -/
def srecFileOpen (lines : List (List Char)) : Option (List SRecSegment) :=
  match srecFileOpenAux lines 0 ⟨[], none⟩ with
  | none => none
  | some st => some (List.insertionSort segLE st.segs)

/-- One S1/S2/S3 record of the file: its address, payload, and line
index. -/
structure SRecRecord where
  addr    : Nat
  payload : List Nat
  pos     : Nat
deriving Repr, DecidableEq

/-- The address one past a record's last byte. -/
def recEnd (r : SRecRecord) : Nat := r.addr + r.payload.length

/-- The data records of a list of lines, the first line carrying index
`idx`. -/
def fileRecordsAux : List (List Char) → Nat → List SRecRecord
  | [], _ => []
  | l :: rest, idx =>
    match srecParseLine l with
    | some (.dataRec a d) => ⟨a, d, idx⟩ :: fileRecordsAux rest (idx + 1)
    | _ => fileRecordsAux rest (idx + 1)

/-- The data records of the whole file, in file order. -/
def fileRecords (lines : List (List Char)) : List SRecRecord :=
  fileRecordsAux lines 0

/-- The data records at or after line position `p`. -/
def recsFrom (lines : List (List Char)) (p : Nat) : List SRecRecord :=
  fileRecordsAux (lines.drop p) p

/-- `SREC_DATA_BUFFER_SIZE`: the chunk buffer of
`SRecReaderSegmentGetNextData`. -/
def SREC_DATA_BUFFER_SIZE : Nat := 512

/-- The line-reading loop of `SRecReaderSegmentGetNextData`, at file
position `pos` with `acc` bytes accumulated for the chunk whose start
address is `addr` (meaningful once `acc` is nonempty): read lines until
end of file, a line outside the opened segment's range, or a line that
would overflow the chunk buffer (both rewind, i.e. leave `pos` at that
line); a non-contiguous in-range line or a parse failure is an error
(`none`). -/
def srecNextChunkAux (lines : List (List Char)) (seg : SRecSegment)
    (pos addr : Nat) (acc : List Nat) : Option (Nat × List Nat × Nat) :=
  if h : lines.length ≤ pos then some (addr, acc, pos)
  else
    match srecParseLine (lines.getD pos []) with
    | none => none
    | some .noData => srecNextChunkAux lines seg (pos + 1) addr acc
    | some (.dataRec a d) =>
      let addr1 := if acc.length = 0 then a else addr
      if a < seg.addr ∨ segEnd seg < a + d.length then some (addr1, acc, pos)
      else if a ≠ addr1 + acc.length then none
      else if SREC_DATA_BUFFER_SIZE < acc.length + d.length then some (addr1, acc, pos)
      else srecNextChunkAux lines seg (pos + 1) addr1 (acc ++ d)
termination_by lines.length - pos
decreasing_by all_goals omega

/-- `SRecReaderSegmentGetNextData` for the opened segment `seg` at file
position `pos`: returns the chunk's start address, its bytes (empty =
`End`), and the new file position, or `none` on error. -/
def srecSegmentGetNextData (lines : List (List Char)) (seg : SRecSegment)
    (pos : Nat) : Option (Nat × List Nat × Nat) :=
  srecNextChunkAux lines seg pos 0 []

/-- Call `SRecReaderSegmentGetNextData` repeatedly (at most `fuel` times)
until it signals `End` (an empty chunk), collecting the emitted chunks;
`none` on error or fuel exhaustion. -/
def srecCollectChunks (lines : List (List Char)) (seg : SRecSegment) :
    Nat → Nat → Option (List (Nat × List Nat))
  | 0, _ => none
  | fuel + 1, pos =>
    match srecSegmentGetNextData lines seg pos with
    | none => none
    | some (a, d, pos1) =>
      if d.length = 0 then some []
      else
        match srecCollectChunks lines seg fuel pos1 with
        | none => none
        | some cs => some ((a, d) :: cs)

/-- A record lies inside a segment's address range. -/
def srecBelongs (seg : SRecSegment) (r : SRecRecord) : Bool :=
  decide (seg.addr ≤ r.addr) && decide (recEnd r ≤ segEnd seg)

/-! ## Line-level lemmas and claims C9, C10 -/

/-- Every nibble value is at most 15. -/
theorem hexCharVal_le (c : Char) : hexCharVal c ≤ 15 := by
  unfold hexCharVal
  split <;> omega

/-- A character that is not a hexadecimal digit converts to nibble 0. -/
theorem hexCharVal_eq_zero (c : Char) (hc : c ∉ "0123456789abcdefABCDEF".data) :
    hexCharVal c = 0 := by
  unfold hexCharVal
  split <;> first
    | rfl
    | (exact absurd (by decide) hc)

/-- Every hex byte value is at most 255. -/
theorem hexStringToByte_le (line : List Char) (i : Nat) :
    hexStringToByte line i ≤ 255 := by
  unfold hexStringToByte
  have h1 := hexCharVal_le (lineGetChar line i)
  have h2 := hexCharVal_le (lineGetChar line (i + 1))
  omega

/-- The S-record line checksum as the specification describes it: the one's
complement of the 8-bit truncated byte-wise sum of the byte-count byte and
the `byteCount - 1` following byte pairs (the address bytes and the data
bytes).  Stated from the spec's words, for comparison with the code's
`SRecReaderVerifyChecksum`. -/
def specLineChecksum (line : List Char) : Nat :=
  255 - ((hexStringToByte line 2 +
    ((List.range (hexStringToByte line 2 - 1)).map fun k =>
      hexStringToByte line (4 + 2 * k)).sum) % 256)

/-- For any line whose byte count is at least 2, the code's checksum
verification succeeds exactly when the line's final checksum byte equals
the specification's formula. -/
theorem verifyChecksum_iff_spec (line : List Char)
    (hb : 2 ≤ hexStringToByte line 2) :
    srecVerifyChecksum line = true ↔
      hexStringToByte line (4 + 2 * (hexStringToByte line 2 - 1)) =
        specLineChecksum line := by
  unfold srecVerifyChecksum specLineChecksum checksumIterations
  dsimp only
  rw [if_neg (by omega)]
  have hmax : max (hexStringToByte line 2 - 1) 1 = hexStringToByte line 2 - 1 := by
    omega
  rw [hmax]
  simp only [decide_eq_true_eq]
  exact eq_comm

/-- A parse-errored member line makes the whole open loop fail. -/
theorem fileOpenAux_none_of_mem (lines : List (List Char)) (line : List Char)
    (hmem : line ∈ lines) (hline : srecParseLine line = none) :
    ∀ idx st, srecFileOpenAux lines idx st = none := by
  induction lines with
  | nil => cases hmem
  | cons l rest ih =>
    intro idx st
    rcases List.mem_cons.mp hmem with rfl | hmem2
    · simp [srecFileOpenAux, hline]
    · unfold srecFileOpenAux
      cases hp : srecParseLine l with
      | none => rfl
      | some pl => cases pl <;> exact ih hmem2 _ _

/-- An S1/S2/S3 line with a failing checksum parse-errors. -/
theorem parseLine_none_of_badChecksum (line : List Char)
    (htype : srecGetLineType line ≠ .unsupported)
    (hcs : srecVerifyChecksum line = false) :
    srecParseLine line = none := by
  unfold srecParseLine
  cases h : srecGetLineType line with
  | unsupported => exact absurd h htype
  | s1 => rw [hcs]; rfl
  | s2 => rw [hcs]; rfl
  | s3 => rw [hcs]; rfl

/-- C9: the line checksum is the one's complement of the 8-bit truncated
byte-wise sum of the byte-count byte, the address bytes and the data bytes
(`specLineChecksum`); the code's verification agrees with this formula,
and `Open` fails on any file containing an S1/S2/S3 line whose final
checksum byte differs from it. -/
theorem c9_checksum (lines : List (List Char)) (line : List Char)
    (hmem : line ∈ lines)
    (htype : srecGetLineType line ≠ .unsupported)
    (hb : 2 ≤ hexStringToByte line 2)
    (hcs : hexStringToByte line (4 + 2 * (hexStringToByte line 2 - 1)) ≠
      specLineChecksum line) :
    srecVerifyChecksum line = false ∧ srecFileOpen lines = none := by
  have hver : srecVerifyChecksum line = false := by
    rw [← Bool.not_eq_true, verifyChecksum_iff_spec line hb]
    exact hcs
  refine ⟨hver, ?_⟩
  unfold srecFileOpen
  rw [fileOpenAux_none_of_mem lines line hmem
    (parseLine_none_of_badChecksum line htype hver) 0 ⟨[], none⟩]

/-- C9 witness: the minimal S1 line with its checksum byte changed from
`0xF7` to `0xF6` fails verification and aborts `Open`. -/
theorem c9_witness :
    srecVerifyChecksum "S10500000102F6".data = false ∧
    srecFileOpen ["S10500000102F6".data] = none :=
  c9_checksum ["S10500000102F6".data] "S10500000102F6".data
    (by decide) (by decide) (by decide) (by decide)

/-- The minimum byte count each data line type requires (address bytes plus
the checksum byte). -/
def srecMinCount : SRecLineType → Nat
  | .s1 => 3
  | .s2 => 4
  | .s3 => 5
  | .unsupported => 0

/-- C10 (amended): the hex-pair converter maps any character outside
`0-9a-fA-F` to the nibble value 0 instead of reporting an error, and an
S1/S2/S3 line is rejected exactly when its checksum verification fails *or*
its parsed byte count is not above the line type's minimum — so a line with
a non-hex character is never rejected because of that character itself,
but it can be rejected through the byte-count check even when the checksum
arithmetic happens to match. -/
theorem c10_amended (c : Char) (line : List Char)
    (hc : c ∉ "0123456789abcdefABCDEF".data)
    (htype : srecGetLineType line ≠ .unsupported) :
    hexCharVal c = 0 ∧
    (srecParseLine line = none ↔
      (srecVerifyChecksum line = false ∨
        hexStringToByte line 2 ≤ srecMinCount (srecGetLineType line))) := by
  refine ⟨hexCharVal_eq_zero c hc, ?_⟩
  unfold srecParseLine
  cases h : srecGetLineType line with
  | unsupported => exact absurd h htype
  | s1 =>
    cases hver : srecVerifyChecksum line with
    | false => simp [srecMinCount]
    | true =>
      by_cases hcount : 3 < hexStringToByte line 2 <;>
        simp [srecMinCount, hcount] <;> omega
  | s2 =>
    cases hver : srecVerifyChecksum line with
    | false => simp [srecMinCount]
    | true =>
      by_cases hcount : 4 < hexStringToByte line 2 <;>
        simp [srecMinCount, hcount] <;> omega
  | s3 =>
    cases hver : srecVerifyChecksum line with
    | false => simp [srecMinCount]
    | true =>
      by_cases hcount : 5 < hexStringToByte line 2 <;>
        simp [srecMinCount, hcount] <;> omega

/-- C10 counterexample: the line `S1Z200FD` contains the non-hex character
`Z` in its byte-count field; the checksum arithmetic *matches*
(`Z2` reads as count 2, sum `2 + 0x00 = 2`, complement `0xFD`), yet the
line is rejected — through the byte-count check, not a checksum mismatch —
refuting "the line is rejected only if the resulting checksum arithmetic
happens to mismatch". -/
theorem c10_counterexample :
    'Z' ∈ "S1Z200FD".data ∧
    'Z' ∉ "0123456789abcdefABCDEF".data ∧
    srecVerifyChecksum "S1Z200FD".data = true ∧
    srecParseLine "S1Z200FD".data = none := by
  decide

/-- C10 witness: the amended theorem applied to the non-hex character `Z`
and the line `S1Z200FD`. -/
theorem c10_witness :
    hexCharVal 'Z' = 0 ∧
    (srecParseLine "S1Z200FD".data = none ↔
      (srecVerifyChecksum "S1Z200FD".data = false ∨
        hexStringToByte "S1Z200FD".data 2 ≤
          srecMinCount (srecGetLineType "S1Z200FD".data))) :=
  c10_amended 'Z' "S1Z200FD".data (by decide) (by decide)

/-! ## Claim C5 — total segment length -/

/-- The number of payload bytes a line contributes (0 for non-data lines;
only meaningful on files whose lines all parse). -/
def linePayloadLen (l : List Char) : Nat :=
  match srecParseLine l with
  | some (.dataRec _ d) => d.length
  | _ => 0

/-- The sum of the segment lengths. -/
def segsLenSum (segs : List SRecSegment) : Nat := (segs.map (·.len)).sum

theorem segsLenSum_set (n : Nat) : ∀ (segs : List SRecSegment) (i : Nat) (s : SRecSegment),
    segs.get? i = some s →
    segsLenSum (segs.set i { s with len := s.len + n }) = segsLenSum segs + n := by
  intro segs
  induction segs with
  | nil => intro i s h; cases h
  | cons t rest ih =>
    intro i s h
    cases i with
    | zero =>
      cases h
      simp [segsLenSum]
      omega
    | succ i =>
      have := ih i s h
      simp only [List.set_cons_succ, segsLenSum, List.map_cons, List.sum_cons]
      simp only [segsLenSum] at this
      omega

theorem openStepSearch_sum (segs : List SRecSegment) (a n idx : Nat) :
    segsLenSum (openStepSearch segs a n idx).segs = segsLenSum segs + n := by
  unfold openStepSearch
  cases hf : segs.findIdx? (fun s => segEnd s == a) with
  | none => simp [segsLenSum]
  | some j =>
    have hj := (List.findIdx?_eq_some_iff_findIdx_eq.mp hf).1
    dsimp only
    cases hg : segs.get? j with
    | none =>
      rw [List.get?_eq_none] at hg
      omega
    | some s => exact segsLenSum_set n segs j s hg

theorem openStep_sum (st : OpenState) (a n idx : Nat) :
    segsLenSum (openStep st a n idx).segs = segsLenSum st.segs + n := by
  rcases st with ⟨segs, cur⟩
  unfold openStep
  cases cur with
  | none => exact openStepSearch_sum _ _ _ _
  | some i =>
    dsimp only
    cases hg : segs.get? i with
    | none => exact openStepSearch_sum _ _ _ _
    | some s =>
      dsimp only
      split
      · exact segsLenSum_set n segs i s hg
      · exact openStepSearch_sum _ _ _ _

theorem fileOpenAux_sum (lines : List (List Char)) :
    ∀ (idx : Nat) (st st' : OpenState),
    srecFileOpenAux lines idx st = some st' →
    segsLenSum st'.segs = segsLenSum st.segs + (lines.map linePayloadLen).sum := by
  induction lines with
  | nil =>
    intro idx st st' h
    cases h
    simp
  | cons l rest ih =>
    intro idx st st' h
    unfold srecFileOpenAux at h
    cases hp : srecParseLine l with
    | none => rw [hp] at h; cases h
    | some pl =>
      cases pl with
      | noData =>
        rw [hp] at h
        have := ih (idx + 1) st st' h
        simp only [List.map_cons, List.sum_cons, linePayloadLen, hp]
        omega
      | dataRec a d =>
        rw [hp] at h
        have h1 := ih (idx + 1) (openStep st a d.length idx) st' h
        have h2 := openStep_sum st a d.length idx
        simp only [List.map_cons, List.sum_cons, linePayloadLen, hp]
        omega

/-- C5: for every file on which `Open` succeeds, the segment lengths sum to
the total number of payload bytes across all S1/S2/S3 lines. -/
theorem c5_total_length (lines : List (List Char)) (segs : List SRecSegment)
    (hopen : srecFileOpen lines = some segs) :
    segsLenSum segs = (lines.map linePayloadLen).sum := by
  unfold srecFileOpen at hopen
  cases haux : srecFileOpenAux lines 0 ⟨[], none⟩ with
  | none => rw [haux] at hopen; cases hopen
  | some st =>
    rw [haux] at hopen
    cases hopen
    have hperm : (List.insertionSort segLE st.segs).Perm st.segs :=
      List.perm_insertionSort segLE st.segs
    have hsum : segsLenSum (List.insertionSort segLE st.segs) = segsLenSum st.segs :=
      List.Perm.sum_eq (hperm.map (·.len))
    rw [hsum, fileOpenAux_sum lines 0 ⟨[], none⟩ st haux]
    simp [segsLenSum]

/-- C5 witness: a two-line file with a gap — segment lengths 2 + 2 equal
the 4 payload bytes of the two S1 lines. -/
theorem c5_witness :
    segsLenSum [⟨0, 2, 0⟩, ⟨4, 2, 1⟩] =
      (["S10500000102F7".data, "S1050004AABB91".data].map linePayloadLen).sum :=
  c5_total_length ["S10500000102F7".data, "S1050004AABB91".data]
    [⟨0, 2, 0⟩, ⟨4, 2, 1⟩] (by decide)

/-! ## Claim C2 — sortedness and disjointness of the segment set -/

/-- Two records occupy disjoint address ranges. -/
def recsDisjoint (r s : SRecRecord) : Prop := recEnd r ≤ s.addr ∨ recEnd s ≤ r.addr

instance : DecidableRel recsDisjoint := fun r s =>
  if h : recEnd r ≤ s.addr ∨ recEnd s ≤ r.addr then .isTrue h else .isFalse h

/-- Two segments share no address. -/
def segPtDisjoint (s t : SRecSegment) : Prop :=
  ∀ x, s.addr ≤ x → x < segEnd s → ¬(t.addr ≤ x ∧ x < segEnd t)

theorem segPtDisjoint_symm : Symmetric segPtDisjoint := by
  intro s t h x hx1 hx2 hmem
  exact h x hmem.1 hmem.2 ⟨hx1, hx2⟩

/-- Every address of the segment lies in some record of `recs`. -/
def coveredBy (seg : SRecSegment) (recs : List SRecRecord) : Prop :=
  ∀ x, seg.addr ≤ x → x < segEnd seg → ∃ r ∈ recs, r.addr ≤ x ∧ x < recEnd r

theorem coveredBy_append (seg : SRecSegment) (recs more : List SRecRecord)
    (h : coveredBy seg recs) : coveredBy seg (recs ++ more) := by
  intro x hx1 hx2
  obtain ⟨r, hr, hr1, hr2⟩ := h x hx1 hx2
  exact ⟨r, List.mem_append_left _ hr, hr1, hr2⟩

/-- The invariant `SRecReaderFileOpen`'s loop maintains over the segment
list, relative to the records already processed: positive lengths, pairwise
disjointness, and each segment covered by processed records. -/
def OpenInvC2 (recs : List SRecRecord) (segs : List SRecSegment) : Prop :=
  (∀ s ∈ segs, 0 < s.len) ∧ segs.Pairwise segPtDisjoint ∧
    ∀ s ∈ segs, coveredBy s recs

/-- A segment covered by records all disjoint from the address range
`[a, a + n)` contains no address of that range. -/
theorem covered_not_in_new (t : SRecSegment) (done : List SRecRecord) (a n : Nat)
    (hcov : coveredBy t done)
    (hdisj : ∀ q ∈ done, recEnd q ≤ a ∨ a + n ≤ q.addr) :
    ∀ x, a ≤ x → x < a + n → ¬(t.addr ≤ x ∧ x < segEnd t) := by
  intro x hx1 hx2 ⟨ht1, ht2⟩
  obtain ⟨q, hq, hq1, hq2⟩ := hcov x ht1 ht2
  rcases hdisj q hq with h | h <;> omega

/-- Pairwise over an updated entry, via indices. -/
theorem pairwise_get_ne {α : Type} {R : α → α → Prop} (hsymm : Symmetric R)
    {l : List α} (hp : l.Pairwise R) (i j : Fin l.length) (hne : i.val ≠ j.val) :
    R (l.get i) (l.get j) := by
  rcases Nat.lt_or_ge i.val j.val with hlt | hge
  · exact List.pairwise_iff_get.mp hp i j hlt
  · have hlt2 : j < i := lt_of_le_of_ne hge (fun hcontra => hne (by omega))
    exact hsymm (List.pairwise_iff_get.mp hp j i hlt2)

theorem pairwise_set {α : Type} {R : α → α → Prop} (hsymm : Symmetric R)
    (l : List α) (i : Nat) (b : α) (hp : l.Pairwise R)
    (hb : ∀ j : Fin l.length, j.val ≠ i → R b (l.get j)) :
    (l.set i b).Pairwise R := by
  rw [List.pairwise_iff_get]
  intro p q hpq
  have hlen : (l.set i b).length = l.length := List.length_set l i b
  have hgp : (l.set i b).get p = if i = p.val then b else l.get ⟨p.val, by omega⟩ := by
    rw [List.get_set]
  have hgq : (l.set i b).get q = if i = q.val then b else l.get ⟨q.val, by omega⟩ := by
    rw [List.get_set]
  rw [hgp, hgq]
  by_cases hip : i = p.val <;> by_cases hiq : i = q.val
  · omega
  · rw [if_pos hip, if_neg hiq]
    exact hb ⟨q.val, by omega⟩ (by simp; omega)
  · rw [if_neg hip, if_pos hiq]
    exact hsymm (hb ⟨p.val, by omega⟩ (by simp; omega))
  · rw [if_neg hip, if_neg hiq]
    exact pairwise_get_ne hsymm hp _ _ (by simp; omega)

/-- Extending the segment that ends exactly at `a` by the new record
`[a, a + |d|)` preserves the invariant. -/
theorem extend_inv (segs : List SRecSegment) (i : Nat) (s : SRecSegment)
    (a : Nat) (d : List Nat) (idx : Nat) (done : List SRecRecord)
    (hg : segs.get? i = some s) (ha : segEnd s = a) (hn : 0 < d.length)
    (hdisj : ∀ q ∈ done, recEnd q ≤ a ∨ a + d.length ≤ q.addr)
    (hinv : OpenInvC2 done segs) :
    OpenInvC2 (done ++ [⟨a, d, idx⟩]) (segs.set i { s with len := s.len + d.length}) := by
  obtain ⟨hlen, hpair, hcov⟩ := hinv
  have hi : i < segs.length := (List.get?_eq_some.mp hg).1
  have hgi : segs.get ⟨i, hi⟩ = s := by
    have := (List.get?_eq_some.mp hg).2
    simpa using this
  have hsmem : s ∈ segs := hgi ▸ List.get_mem segs i hi
  refine ⟨?_, ?_, ?_⟩
  · intro t ht
    rcases List.mem_or_eq_of_mem_set ht with h | rfl
    · exact hlen t h
    · have := hlen s hsmem
      simp only
      omega
  · apply pairwise_set segPtDisjoint_symm segs i _ hpair
    intro j hj
    set t := segs.get j with hjt
    have htmem : t ∈ segs := by rw [hjt]; exact List.get_mem segs j.1 j.2
    intro x hx1 hx2 hmem
    simp only [segEnd] at hx2
    by_cases hxold : x < segEnd s
    · -- within the old extent of s: old disjointness applies
      have hdisj2 : segPtDisjoint s t := by
        have := pairwise_get_ne segPtDisjoint_symm hpair ⟨i, hi⟩ j (by simpa [hgi] using hj ∘ Eq.symm)
        rw [hgi] at this
        exact this
      exact hdisj2 x hx1 hxold hmem
    · -- within the new part [a, a + |d|)
      have hx3 : a ≤ x := by simp only [segEnd] at ha hxold ⊢; omega
      have hx4 : x < a + d.length := by simp only [segEnd] at ha ⊢; omega
      exact covered_not_in_new t done a d.length (hcov t htmem) hdisj x hx3 hx4 hmem
  · intro t ht
    rcases List.mem_or_eq_of_mem_set ht with h | rfl
    · exact coveredBy_append t done _ (hcov t h)
    · intro x hx1 hx2
      simp only [segEnd] at hx2
      by_cases hxold : x < segEnd s
      · obtain ⟨q, hq, hq1, hq2⟩ := hcov s hsmem x hx1 hxold
        exact ⟨q, List.mem_append_left _ hq, hq1, hq2⟩
      · refine ⟨⟨a, d, idx⟩, List.mem_append_right _ (List.mem_singleton_self _), ?_, ?_⟩
        · simp only [segEnd] at ha hxold ⊢; omega
        · simp only [recEnd, segEnd] at ha ⊢; omega

/-- Appending a fresh segment for the new record preserves the
invariant. -/
theorem append_inv (segs : List SRecSegment) (a : Nat) (d : List Nat)
    (idx : Nat) (done : List SRecRecord)
    (hn : 0 < d.length)
    (hdisj : ∀ q ∈ done, recEnd q ≤ a ∨ a + d.length ≤ q.addr)
    (hinv : OpenInvC2 done segs) :
    OpenInvC2 (done ++ [⟨a, d, idx⟩]) (segs ++ [⟨a, d.length, idx⟩]) := by
  obtain ⟨hlen, hpair, hcov⟩ := hinv
  refine ⟨?_, ?_, ?_⟩
  · intro t ht
    rcases List.mem_append.mp ht with h | h
    · exact hlen t h
    · rw [List.mem_singleton.mp h]
      exact hn
  · rw [List.pairwise_append]
    refine ⟨hpair, List.pairwise_singleton _ _, ?_⟩
    intro t ht u hu
    rw [List.mem_singleton.mp hu]
    intro x hx1 hx2 hmem
    simp only [segEnd] at hmem
    exact covered_not_in_new t done a d.length (hcov t ht) hdisj x hmem.1 hmem.2 ⟨hx1, hx2⟩
  · intro t ht
    rcases List.mem_append.mp ht with h | h
    · exact coveredBy_append t done _ (hcov t h)
    · rw [List.mem_singleton.mp h]
      intro x hx1 hx2
      simp only [segEnd] at hx2
      exact ⟨⟨a, d, idx⟩, List.mem_append_right _ (List.mem_singleton_self _),
        hx1, by simp only [recEnd]; omega⟩

/-- `openStep` preserves the invariant when the incoming record is disjoint
from every processed record. -/
theorem openStep_inv (segs : List SRecSegment) (cur : Option Nat)
    (a : Nat) (d : List Nat) (idx : Nat) (done : List SRecRecord)
    (hn : 0 < d.length)
    (hdisj : ∀ q ∈ done, recEnd q ≤ a ∨ a + d.length ≤ q.addr)
    (hinv : OpenInvC2 done segs) :
    OpenInvC2 (done ++ [⟨a, d, idx⟩]) (openStep ⟨segs, cur⟩ a d.length idx).segs := by
  have hsearch : OpenInvC2 (done ++ [⟨a, d, idx⟩]) (openStepSearch segs a d.length idx).segs := by
    unfold openStepSearch
    cases hf : segs.findIdx? (fun s => segEnd s == a) with
    | none => exact append_inv segs a d idx done hn hdisj hinv
    | some j =>
      dsimp only
      cases hg : segs.get? j with
      | none =>
        refine ⟨hinv.1, hinv.2.1, ?_⟩
        intro t ht
        exact coveredBy_append t done _ (hinv.2.2 t ht)
      | some s =>
        have hj := (List.findIdx?_eq_some_iff_findIdx_eq.mp hf).1
        have hfi := (List.findIdx?_eq_some_iff_findIdx_eq.mp hf).2
        have hp : (segEnd (segs.get ⟨j, hj⟩) == a) = true := by
          subst hfi
          exact @List.findIdx_get _ (fun s => segEnd s == a) segs hj
        have hgi : segs.get ⟨j, hj⟩ = s := by
          have := (List.get?_eq_some.mp hg).2
          simpa using this
        rw [hgi] at hp
        exact extend_inv segs j s a d idx done hg (by simpa using hp) hn hdisj hinv
  unfold openStep
  cases cur with
  | none => exact hsearch
  | some i =>
    dsimp only
    cases hg : segs.get? i with
    | none => exact hsearch
    | some s =>
      dsimp only
      split
      · exact extend_inv segs i s a d idx done hg (by assumption) hn hdisj hinv
      · exact hsearch

/-- A parsed data record has between 1 and 252 payload bytes. -/
theorem parseLine_dataRec_bounds (line : List Char) (a : Nat) (d : List Nat)
    (h : srecParseLine line = some (.dataRec a d)) :
    0 < d.length ∧ d.length ≤ 252 := by
  have hble := hexStringToByte_le line 2
  unfold srecParseLine at h
  cases ht : srecGetLineType line with
  | unsupported => rw [ht] at h; simp at h
  | s1 =>
    rw [ht] at h
    dsimp only at h
    split_ifs at h with h1 h2
    simp only [Option.some.injEq, ParsedLine.dataRec.injEq] at h
    rw [← h.2]
    simp only [payloadBytes, List.length_map, List.length_range]
    omega
  | s2 =>
    rw [ht] at h
    dsimp only at h
    split_ifs at h with h1 h2
    simp only [Option.some.injEq, ParsedLine.dataRec.injEq] at h
    rw [← h.2]
    simp only [payloadBytes, List.length_map, List.length_range]
    omega
  | s3 =>
    rw [ht] at h
    dsimp only at h
    split_ifs at h with h1 h2
    simp only [Option.some.injEq, ParsedLine.dataRec.injEq] at h
    rw [← h.2]
    simp only [payloadBytes, List.length_map, List.length_range]
    omega

/-- The open loop maintains `OpenInvC2` when all data records of the file
are pairwise disjoint. -/
theorem openAux_c2 (lines : List (List Char)) :
    ∀ (idx : Nat) (done : List SRecRecord) (segs : List SRecSegment)
      (cur : Option Nat) (st' : OpenState),
    srecFileOpenAux lines idx ⟨segs, cur⟩ = some st' →
    (fileRecordsAux lines idx).Pairwise recsDisjoint →
    (∀ q ∈ done, ∀ r ∈ fileRecordsAux lines idx, recsDisjoint q r) →
    OpenInvC2 done segs →
    OpenInvC2 (done ++ fileRecordsAux lines idx) st'.segs := by
  induction lines with
  | nil =>
    intro idx done segs cur st' h _ _ hinv
    cases h
    simpa [fileRecordsAux] using hinv
  | cons l rest ih =>
    intro idx done segs cur st' h hpw hdj hinv
    unfold srecFileOpenAux at h
    unfold fileRecordsAux at hpw hdj ⊢
    revert h hpw hdj
    cases hp : srecParseLine l with
    | none =>
      intro h _ _
      dsimp only at h
      cases h
    | some pl =>
      cases pl with
      | noData =>
        intro h hpw hdj
        dsimp only at h hpw hdj ⊢
        exact ih (idx + 1) done segs cur st' h hpw hdj hinv
      | dataRec a d =>
        intro h hpw hdj
        dsimp only at h hpw hdj ⊢
        have hb := parseLine_dataRec_bounds l a d hp
        have hstep := openStep_inv segs cur a d idx done hb.1
          (fun q hq => hdj q hq ⟨a, d, idx⟩ (List.mem_cons_self _ _)) hinv
        have hrest := (List.pairwise_cons.mp hpw).2
        have hhead := (List.pairwise_cons.mp hpw).1
        have hrec := ih (idx + 1) (done ++ [⟨a, d, idx⟩])
          (openStep ⟨segs, cur⟩ a d.length idx).segs
          (openStep ⟨segs, cur⟩ a d.length idx).cur st' h hrest
          (by
            intro q hq r hr
            rcases List.mem_append.mp hq with hq1 | hq2
            · exact hdj q hq1 r (List.mem_cons_of_mem _ hr)
            · rw [List.mem_singleton.mp hq2]
              exact hhead r hr)
          hstep
        rw [List.append_assoc] at hrec
        simpa using hrec

/-- C2 (amended): for every file on which `Open` succeeds whose data
records occupy pairwise disjoint address ranges, the segment set is sorted
ascending and pairwise disjoint:
`segments[i].base + segments[i].length ≤ segments[j].base` for `i < j`. -/
theorem c2_amended (lines : List (List Char)) (segs : List SRecSegment)
    (hopen : srecFileOpen lines = some segs)
    (hdisj : (fileRecords lines).Pairwise recsDisjoint)
    (i j : Nat) (hij : i < j) (hi : i < segs.length) (hj : j < segs.length) :
    (segs.get ⟨i, hi⟩).addr + (segs.get ⟨i, hi⟩).len ≤ (segs.get ⟨j, hj⟩).addr := by
  unfold srecFileOpen at hopen
  cases haux : srecFileOpenAux lines 0 ⟨[], none⟩ with
  | none => rw [haux] at hopen; cases hopen
  | some st =>
    rw [haux] at hopen
    injection hopen with hopen
    have hinv : OpenInvC2 ([] ++ fileRecords lines) st.segs :=
      openAux_c2 lines 0 [] [] none st haux hdisj (by intro q hq; cases hq)
        (by unfold OpenInvC2
            exact ⟨fun s hs => absurd hs (List.not_mem_nil s), List.Pairwise.nil,
              fun s hs => absurd hs (List.not_mem_nil s)⟩)
    have hperm : (List.insertionSort segLE st.segs).Perm st.segs :=
      List.perm_insertionSort segLE st.segs
    have hlen : ∀ s ∈ segs, 0 < s.len := by
      intro s hs
      rw [← hopen] at hs
      exact hinv.1 s (hperm.mem_iff.mp hs)
    have hpair : segs.Pairwise segPtDisjoint := by
      rw [← hopen]
      exact hinv.2.1.perm hperm.symm (fun h => segPtDisjoint_symm h)
    have hsorted : List.Sorted segLE segs := by
      rw [← hopen]
      exact List.sorted_insertionSort segLE st.segs
    have hle : segLE (segs.get ⟨i, hi⟩) (segs.get ⟨j, hj⟩) :=
      hsorted.rel_get_of_lt (show (⟨i, hi⟩ : Fin segs.length) < ⟨j, hj⟩ from hij)
    have hdisj2 : segPtDisjoint (segs.get ⟨i, hi⟩) (segs.get ⟨j, hj⟩) :=
      List.pairwise_iff_get.mp hpair ⟨i, hi⟩ ⟨j, hj⟩ hij
    have hjlen : 0 < (segs.get ⟨j, hj⟩).len :=
      hlen _ (List.get_mem segs j hj)
    by_contra hcon
    exact hdisj2 (segs.get ⟨j, hj⟩).addr hle
      (by simp only [segEnd]; omega)
      ⟨le_refl _, by simp only [segEnd]; omega⟩

/-- C2 counterexample: a file with two identical S1 records parses cleanly
but produces two overlapping segments, both based at 0 — so after `Open`
succeeds, `segments[0].base + segments[0].length ≤ segments[1].base`
fails. -/
theorem c2_counterexample :
    srecFileOpen ["S10500000102F7".data, "S10500000102F7".data] =
      some [⟨0, 2, 0⟩, ⟨0, 2, 1⟩] ∧
    ¬((0 : Nat) + 2 ≤ 0) := by
  decide

/-- C2 witness: the amended theorem applied to a two-record file with
disjoint records (addresses 0 and 4). -/
theorem c2_witness :
    (([⟨0, 2, 0⟩, ⟨4, 2, 1⟩] : List SRecSegment).get ⟨0, by decide⟩).addr +
      (([⟨0, 2, 0⟩, ⟨4, 2, 1⟩] : List SRecSegment).get ⟨0, by decide⟩).len ≤
      (([⟨0, 2, 0⟩, ⟨4, 2, 1⟩] : List SRecSegment).get ⟨1, by decide⟩).addr :=
  c2_amended ["S10500000102F7".data, "S1050004AABB91".data] [⟨0, 2, 0⟩, ⟨4, 2, 1⟩]
    (by decide) (by decide) 0 1 (by decide) (by decide) (by decide)

/-! ## Claim C1 — segment chunk iteration

The claim fails on files whose segments' records are interleaved (the
chunk loop stops at the first out-of-range line); it holds for files whose
data records appear in ascending, non-overlapping address order.  The
development characterises `SRecReaderFileOpen` on such files (`runsFrom`),
then follows the chunk loop. -/

/-- Ascending, non-overlapping record order: each record ends at or before
the next one starts. -/
def ascRec (r s : SRecRecord) : Prop := recEnd r ≤ s.addr

/-- `rs` tiles the address range starting at `α` contiguously. -/
def tilesFrom : Nat → List SRecRecord → Prop
  | _, [] => True
  | α, r :: rs => r.addr = α ∧ tilesFrom (α + r.payload.length) rs

/-- Total payload length of a record list. -/
def totalLen (rs : List SRecRecord) : Nat := (rs.map (·.payload.length)).sum

/-- The payloads of a record list, concatenated in order. -/
def concatPayloads (rs : List SRecRecord) : List Nat := (rs.map (·.payload)).join

/-- The longest prefix of records whose payloads fit in `cap` bytes. -/
def takeFit : Nat → List SRecRecord → List SRecRecord
  | _, [] => []
  | cap, r :: rs =>
    if cap < r.payload.length then [] else r :: takeFit (cap - r.payload.length) rs

/-- The records `takeFit` leaves over. -/
def dropFit : Nat → List SRecRecord → List SRecRecord
  | _, [] => []
  | cap, r :: rs =>
    if cap < r.payload.length then r :: rs else dropFit (cap - r.payload.length) rs

/-- The suffix's first record (if any) starts at or past the segment
end. -/
def headAddrGE (seg : SRecSegment) : List SRecRecord → Prop
  | [] => True
  | r :: _ => segEnd seg ≤ r.addr

/-- The chunk list is contiguous from address `α`. -/
def chunkTiles : Nat → List (Nat × List Nat) → Prop
  | _, [] => True
  | α, c :: cs => c.1 = α ∧ chunkTiles (α + c.2.length) cs

theorem takeFit_append_dropFit (cap : Nat) : ∀ rs : List SRecRecord,
    takeFit cap rs ++ dropFit cap rs = rs := by
  intro rs
  induction rs generalizing cap with
  | nil => rfl
  | cons r rs ih =>
    unfold takeFit dropFit
    by_cases h : cap < r.payload.length
    · rw [if_pos h, if_pos h]; rfl
    · rw [if_neg h, if_neg h]
      simp [ih]

theorem tilesFrom_append (α : Nat) (xs ys : List SRecRecord) :
    tilesFrom α (xs ++ ys) ↔ tilesFrom α xs ∧ tilesFrom (α + totalLen xs) ys := by
  induction xs generalizing α with
  | nil => simp [tilesFrom, totalLen]
  | cons x xs ih =>
    have harith : α + totalLen (x :: xs) = (α + x.payload.length) + totalLen xs := by
      simp only [totalLen, List.map_cons, List.sum_cons]; omega
    have hl : tilesFrom α ((x :: xs) ++ ys) ↔
        x.addr = α ∧ tilesFrom (α + x.payload.length) (xs ++ ys) := Iff.rfl
    have hr : tilesFrom α (x :: xs) ↔
        x.addr = α ∧ tilesFrom (α + x.payload.length) xs := Iff.rfl
    rw [hl, hr, ih, harith, and_assoc]

theorem concatPayloads_length (rs : List SRecRecord) :
    (concatPayloads rs).length = totalLen rs := by
  simp only [concatPayloads, totalLen, List.length_join, List.map_map]
  rfl

theorem concatPayloads_append (xs ys : List SRecRecord) :
    concatPayloads (xs ++ ys) = concatPayloads xs ++ concatPayloads ys := by
  simp [concatPayloads]

/-- The bounds of a tiled record group all of whose records belong to the
segment. -/
theorem tiles_belongs_bounds (seg : SRecSegment) : ∀ (g : List SRecRecord) (α : Nat),
    tilesFrom α g → g ≠ [] → (∀ r ∈ g, srecBelongs seg r = true) →
    seg.addr ≤ α ∧ α + totalLen g ≤ segEnd seg := by
  intro g
  induction g with
  | nil => intro α _ hne _; exact absurd rfl hne
  | cons r g ih =>
    intro α ht _ hb
    obtain ⟨h1, h2⟩ := ht
    have hbr := hb r (List.mem_cons_self _ _)
    simp only [srecBelongs, Bool.and_eq_true, decide_eq_true_eq, recEnd] at hbr
    cases g with
    | nil =>
      simp only [totalLen, List.map_cons, List.map_nil, List.sum_cons, List.sum_nil]
      omega
    | cons s g2 =>
      have := ih (α + r.payload.length) h2 (by simp)
        (fun q hq => hb q (List.mem_cons_of_mem _ hq))
      simp only [totalLen, List.map_cons, List.sum_cons] at this ⊢
      omega

/-- Each record of a tiled group lies within the tiled range. -/
theorem tiles_all_within : ∀ (g : List SRecRecord) (α : Nat),
    tilesFrom α g → ∀ r ∈ g, α ≤ r.addr ∧ recEnd r ≤ α + totalLen g := by
  intro g
  induction g with
  | nil => intro α _ r hr; cases hr
  | cons s g ih =>
    intro α ht r hr
    obtain ⟨h1, h2⟩ := ht
    rcases List.mem_cons.mp hr with rfl | hr2
    · simp only [totalLen, List.map_cons, List.sum_cons, recEnd]
      omega
    · have := ih (α + s.payload.length) h2 r hr2
      simp only [totalLen, List.map_cons, List.sum_cons] at this ⊢
      omega

theorem chunkTiles_chain : ∀ (cs : List (Nat × List Nat)) (α : Nat),
    chunkTiles α cs → List.Chain' (fun c d => c.1 + c.2.length = d.1) cs := by
  intro cs
  induction cs with
  | nil => intro α _; exact List.chain'_nil
  | cons c cs ih =>
    intro α ht
    obtain ⟨h1, h2⟩ := ht
    cases cs with
    | nil => simp
    | cons d cs2 =>
      refine List.Chain'.cons ?_ (ih _ h2)
      obtain ⟨h3, _⟩ := h2
      omega

theorem fileRecordsAux_cons_data (l : List Char) (rest : List (List Char)) (i a : Nat)
    (d : List Nat) (hp : srecParseLine l = some (.dataRec a d)) :
    fileRecordsAux (l :: rest) i = ⟨a, d, i⟩ :: fileRecordsAux rest (i + 1) := by
  conv_lhs => rw [fileRecordsAux]
  rw [hp]

theorem fileRecordsAux_cons_skip (l : List Char) (rest : List (List Char)) (i : Nat)
    (hp : srecParseLine l = none ∨ srecParseLine l = some .noData) :
    fileRecordsAux (l :: rest) i = fileRecordsAux rest (i + 1) := by
  conv_lhs => rw [fileRecordsAux]
  rcases hp with hp | hp <;> rw [hp]

theorem recsFrom_eof (lines : List (List Char)) (p : Nat) (h : lines.length ≤ p) :
    recsFrom lines p = [] := by
  unfold recsFrom
  rw [List.drop_eq_nil_of_le h]
  rfl

theorem recsFrom_data (lines : List (List Char)) (p a : Nat) (d : List Nat)
    (h : p < lines.length)
    (hp : srecParseLine (lines.getD p []) = some (.dataRec a d)) :
    recsFrom lines p = ⟨a, d, p⟩ :: recsFrom lines (p + 1) := by
  unfold recsFrom
  rw [List.drop_eq_getElem_cons h]
  rw [List.getD_eq_getElem lines [] h] at hp
  rw [fileRecordsAux_cons_data _ _ _ _ _ hp]

theorem recsFrom_skip (lines : List (List Char)) (p : Nat)
    (h : p < lines.length)
    (hp : srecParseLine (lines.getD p []) = some .noData) :
    recsFrom lines p = recsFrom lines (p + 1) := by
  unfold recsFrom
  rw [List.drop_eq_getElem_cons h]
  rw [List.getD_eq_getElem lines [] h] at hp
  rw [fileRecordsAux_cons_skip _ _ _ (Or.inr hp)]

/-- Record positions lie in the scanned line range. -/
theorem recsPos (L : List (List Char)) : ∀ i, ∀ r ∈ fileRecordsAux L i,
    i ≤ r.pos ∧ r.pos < i + L.length := by
  induction L with
  | nil => intro i r hr; cases hr
  | cons l rest ih =>
    intro i r
    cases hp : srecParseLine l with
    | none =>
      rw [fileRecordsAux_cons_skip _ _ _ (Or.inl hp)]
      intro hr
      have := ih (i + 1) r hr
      simp only [List.length_cons]
      omega
    | some pl =>
      cases pl with
      | noData =>
        rw [fileRecordsAux_cons_skip _ _ _ (Or.inr hp)]
        intro hr
        have := ih (i + 1) r hr
        simp only [List.length_cons]
        omega
      | dataRec a d =>
        rw [fileRecordsAux_cons_data _ _ _ _ _ hp]
        intro hr
        rcases List.mem_cons.mp hr with rfl | hr2
        · simp only [List.length_cons]; omega
        · have := ih (i + 1) r hr2
          simp only [List.length_cons]
          omega

/-- Record positions strictly increase in file order. -/
theorem recsPosChain (L : List (List Char)) : ∀ i,
    List.Chain' (fun r s : SRecRecord => r.pos < s.pos) (fileRecordsAux L i) := by
  induction L with
  | nil => intro i; exact List.chain'_nil
  | cons l rest ih =>
    intro i
    cases hp : srecParseLine l with
    | none => rw [fileRecordsAux_cons_skip _ _ _ (Or.inl hp)]; exact ih (i + 1)
    | some pl =>
      cases pl with
      | noData => rw [fileRecordsAux_cons_skip _ _ _ (Or.inr hp)]; exact ih (i + 1)
      | dataRec a d =>
        rw [fileRecordsAux_cons_data _ _ _ _ _ hp]
        cases hrest : fileRecordsAux rest (i + 1) with
        | nil => simp
        | cons r0 rs =>
          have hchain := ih (i + 1)
          rw [hrest] at hchain
          refine List.Chain'.cons ?_ hchain
          have hmem : r0 ∈ fileRecordsAux rest (i + 1) := by
            rw [hrest]; exact List.mem_cons_self r0 rs
          have := recsPos rest (i + 1) r0 hmem
          exact this.1

/-- There are at most as many records as lines. -/
theorem recsLen (L : List (List Char)) : ∀ i, (fileRecordsAux L i).length ≤ L.length := by
  induction L with
  | nil => intro i; simp [fileRecordsAux]
  | cons l rest ih =>
    intro i
    cases hp : srecParseLine l with
    | none =>
      rw [fileRecordsAux_cons_skip _ _ _ (Or.inl hp)]
      have := ih (i + 1); simp only [List.length_cons]; omega
    | some pl =>
      cases pl with
      | noData =>
        rw [fileRecordsAux_cons_skip _ _ _ (Or.inr hp)]
        have := ih (i + 1); simp only [List.length_cons]; omega
      | dataRec a d =>
        rw [fileRecordsAux_cons_data _ _ _ _ _ hp]
        have := ih (i + 1); simp only [List.length_cons]; omega

/-- Every record's payload has between 1 and 252 bytes. -/
theorem recsBounds (L : List (List Char)) : ∀ i, ∀ r ∈ fileRecordsAux L i,
    0 < r.payload.length ∧ r.payload.length ≤ 252 := by
  induction L with
  | nil => intro i r hr; cases hr
  | cons l rest ih =>
    intro i r
    cases hp : srecParseLine l with
    | none => rw [fileRecordsAux_cons_skip _ _ _ (Or.inl hp)]; exact ih (i + 1) r
    | some pl =>
      cases pl with
      | noData => rw [fileRecordsAux_cons_skip _ _ _ (Or.inr hp)]; exact ih (i + 1) r
      | dataRec a d =>
        rw [fileRecordsAux_cons_data _ _ _ _ _ hp]
        intro hr
        rcases List.mem_cons.mp hr with rfl | hr2
        · exact parseLine_dataRec_bounds l a d hp
        · exact ih (i + 1) r hr2

/-- A successful open means every member line parses. -/
theorem openAux_parses (lines : List (List Char)) (idx : Nat) (st st' : OpenState)
    (h : srecFileOpenAux lines idx st = some st') :
    ∀ l ∈ lines, srecParseLine l ≠ none := by
  intro l hl hnone
  rw [fileOpenAux_none_of_mem lines l hl hnone idx st] at h
  cases h

/-- Splitting the record scan at line `k`. -/
theorem fileRecordsAux_take_drop (k : Nat) : ∀ (L : List (List Char)) (i : Nat),
    fileRecordsAux L i = fileRecordsAux (L.take k) i ++ fileRecordsAux (L.drop k) (i + k) := by
  induction k with
  | zero => intro L i; simp [fileRecordsAux]
  | succ k ih =>
    intro L i
    cases L with
    | nil => simp [fileRecordsAux]
    | cons l rest =>
      rw [List.take_succ_cons, List.drop_succ_cons]
      have harith : i + 1 + k = i + (k + 1) := by omega
      cases hp : srecParseLine l with
      | none =>
        rw [fileRecordsAux_cons_skip _ _ _ (Or.inl hp),
          fileRecordsAux_cons_skip _ _ _ (Or.inl hp), ih rest (i + 1), harith]
      | some pl =>
        cases pl with
        | noData =>
          rw [fileRecordsAux_cons_skip _ _ _ (Or.inr hp),
            fileRecordsAux_cons_skip _ _ _ (Or.inr hp), ih rest (i + 1), harith]
        | dataRec a d =>
          rw [fileRecordsAux_cons_data _ _ _ _ _ hp,
            fileRecordsAux_cons_data _ _ _ _ _ hp, ih rest (i + 1), harith,
            List.cons_append]

/-- The file's records split at line `p` into the records of the first
`p` lines followed by `recsFrom lines p`. -/
theorem fileRecords_split (lines : List (List Char)) (p : Nat) :
    fileRecords lines = fileRecordsAux (lines.take p) 0 ++ recsFrom lines p := by
  unfold fileRecords recsFrom
  have := fileRecordsAux_take_drop p lines 0
  simpa using this

theorem concatPayloads_cons (r : SRecRecord) (rs : List SRecRecord) :
    concatPayloads (r :: rs) = r.payload ++ concatPayloads rs := by
  simp [concatPayloads]

/-- One call of the chunk-filling loop on a belonging record prefix `rs`
followed by out-of-range records `rest`: it packs the greedy prefix
`takeFit` of `rs` into the chunk and rewinds to the first unconsumed
record. -/
theorem nextChunkAux_spec (lines : List (List Char)) (seg : SRecSegment)
    (hparse : ∀ l ∈ lines, srecParseLine l ≠ none) :
    ∀ (n p addr : Nat) (acc : List Nat) (rs rest : List SRecRecord),
    lines.length - p = n →
    recsFrom lines p = rs ++ rest →
    (∀ r ∈ rs, srecBelongs seg r = true) →
    (∀ r ∈ rs, 0 < r.payload.length ∧ r.payload.length ≤ 252) →
    (∀ r ∈ rest, 0 < r.payload.length) →
    headAddrGE seg rest →
    acc.length ≤ SREC_DATA_BUFFER_SIZE →
    (acc = [] → ∀ r0 ∈ rs.head?, tilesFrom r0.addr rs) →
    (acc ≠ [] → tilesFrom (addr + acc.length) rs ∧ seg.addr ≤ addr ∧
      addr + acc.length ≤ segEnd seg) →
    ∃ a1 q,
      srecNextChunkAux lines seg p addr acc =
        some (a1, acc ++ concatPayloads (takeFit (SREC_DATA_BUFFER_SIZE - acc.length) rs), q) ∧
      recsFrom lines q =
        dropFit (SREC_DATA_BUFFER_SIZE - acc.length) rs ++ rest ∧
      (acc = [] → ∀ r0 ∈ rs.head?, a1 = r0.addr) ∧
      (acc ≠ [] → a1 = addr) := by
  intro n
  induction n using Nat.strong_induction_on with
  | _ n ih =>
  intro p addr acc rs rest hn hsplit hb hbnd hrestpos hrge hcap hacc0 hacc1
  by_cases hend : lines.length ≤ p
  · -- end of file: rs and rest are empty, the loop returns the accumulator
    have hre : recsFrom lines p = [] := recsFrom_eof lines p hend
    rw [hre] at hsplit
    have hrs : rs = [] := by
      cases rs with
      | nil => rfl
      | cons x xs => exact absurd hsplit.symm (by simp)
    subst hrs
    have hrest : rest = [] := by simpa using hsplit.symm
    subst hrest
    refine ⟨addr, p, ?_, ?_, ?_, ?_⟩
    · rw [srecNextChunkAux, dif_pos hend]
      simp [takeFit, concatPayloads]
    · rw [hre]; simp [dropFit]
    · intro _ r0 hr0; simp at hr0
    · intro _; rfl
  · have hplt : p < lines.length := by omega
    have hmem : lines.getD p [] ∈ lines := by
      rw [List.getD_eq_getElem lines [] hplt]
      exact List.getElem_mem hplt
    cases hp : srecParseLine (lines.getD p []) with
    | none => exact absurd hp (hparse _ hmem)
    | some pl =>
      cases pl with
      | noData =>
        -- skip line: same state at p + 1
        have hre : recsFrom lines p = recsFrom lines (p + 1) := recsFrom_skip lines p hplt hp
        have hstep : srecNextChunkAux lines seg p addr acc =
            srecNextChunkAux lines seg (p + 1) addr acc := by
          conv_lhs => rw [srecNextChunkAux]
          rw [dif_neg hend, hp]
        obtain ⟨a1, q, heq, hrecs, hc0, hc1⟩ :=
          ih (lines.length - (p + 1)) (by omega) (p + 1) addr acc rs rest rfl
            (by rw [← hre]; exact hsplit) hb hbnd hrestpos hrge hcap hacc0 hacc1
        exact ⟨a1, q, hstep.trans heq, hrecs, hc0, hc1⟩
      | dataRec a d =>
        have hre := recsFrom_data lines p a d hplt hp
        cases rs with
        | nil =>
          -- the record at p is already out of the segment: the loop stops here
          have hrest : rest = ⟨a, d, p⟩ :: recsFrom lines (p + 1) := by
            rw [List.nil_append] at hsplit
            rw [← hsplit, hre]
          have hge : segEnd seg ≤ a := by
            rw [hrest] at hrge
            exact hrge
          have hdpos : 0 < d.length := by
            have := hrestpos ⟨a, d, p⟩ (by rw [hrest]; exact List.mem_cons_self _ _)
            simpa using this
          have hstep : srecNextChunkAux lines seg p addr acc =
              some (if acc.length = 0 then a else addr, acc, p) := by
            conv_lhs => rw [srecNextChunkAux]
            rw [dif_neg hend, hp]
            dsimp only
            rw [if_pos (Or.inr (by omega))]
          refine ⟨if acc.length = 0 then a else addr, p, ?_, ?_, ?_, ?_⟩
          · rw [hstep]
            simp [takeFit, concatPayloads]
          · rw [hsplit]
            simp [dropFit]
          · intro _ r0 hr0; simp at hr0
          · intro hacc
            rw [if_neg (by simpa using fun h => hacc (List.eq_nil_of_length_eq_zero h))]
        | cons r rs2 =>
          rw [hre, List.cons_append] at hsplit
          obtain ⟨heqr, hsplit2⟩ := (List.cons.injEq _ _ _ _).mp hsplit
          subst heqr
          have hbr := hb _ (List.mem_cons_self _ _)
          simp only [srecBelongs, Bool.and_eq_true, decide_eq_true_eq, recEnd] at hbr
          have hbndr := hbnd _ (List.mem_cons_self _ _)
          simp only at hbndr
          have hnorange : ¬(a < seg.addr ∨ segEnd seg < a + d.length) := by
            push_neg
            exact ⟨hbr.1, hbr.2⟩
          by_cases hacc : acc = []
          · subst hacc
            -- the record starts the chunk
            have htile := hacc0 rfl ⟨a, d, p⟩ (by simp)
            simp only [tilesFrom] at htile
            have hstep : srecNextChunkAux lines seg p addr [] =
                srecNextChunkAux lines seg (p + 1) a ([] ++ d) := by
              conv_lhs => rw [srecNextChunkAux]
              rw [dif_neg hend, hp]
              dsimp only
              rw [if_pos (show ([] : List Nat).length = 0 from rfl), if_neg hnorange,
                if_neg (by simp),
                if_neg (by simp only [List.length_nil, SREC_DATA_BUFFER_SIZE]; omega)]
            rw [List.nil_append] at hstep
            obtain ⟨a1, q, heq, hrecs, hc0, hc1⟩ :=
              ih (lines.length - (p + 1)) (by omega) (p + 1) a d rs2 rest rfl hsplit2
                (fun x hx => hb x (List.mem_cons_of_mem _ hx))
                (fun x hx => hbnd x (List.mem_cons_of_mem _ hx))
                hrestpos hrge
                (by simp only [SREC_DATA_BUFFER_SIZE]; omega)
                (fun hd => absurd hbndr.1 (by rw [hd]; simp))
                (fun _ => ⟨by simpa using htile.2, hbr.1, by simpa using hbr.2⟩)
            have hd_ne : d ≠ [] := by
              intro hd0
              have := hbndr.1
              rw [hd0] at this
              simp at this
            refine ⟨a1, q, ?_, ?_, ?_, ?_⟩
            · rw [hstep, heq]
              have hfit : takeFit (SREC_DATA_BUFFER_SIZE - List.length ([] : List Nat))
                  (⟨a, d, p⟩ :: rs2) = ⟨a, d, p⟩ :: takeFit (SREC_DATA_BUFFER_SIZE - d.length) rs2 := by
                simp only [takeFit, List.length_nil, Nat.sub_zero]
                rw [if_neg (by simp only [SREC_DATA_BUFFER_SIZE] at *; omega)]
              rw [hfit]
              simp only [concatPayloads, List.map_cons, List.join, List.nil_append]
              rfl
            · rw [hrecs]
              simp only [dropFit, List.length_nil, Nat.sub_zero]
              rw [if_neg (by simp only [SREC_DATA_BUFFER_SIZE] at *; omega)]
            · intro _ r0 hr0
              simp only [List.head?_cons, Option.mem_some_iff] at hr0
              subst hr0
              exact hc1 hd_ne
            · intro h; exact absurd rfl h
          · -- the record continues the chunk
            obtain ⟨htile, hsegaddr, hsegend⟩ := hacc1 hacc
            simp only [tilesFrom] at htile
            have haddr_eq : a = addr + acc.length := htile.1
            have hlen0 : acc.length ≠ 0 := fun h => hacc (List.eq_nil_of_length_eq_zero h)
            by_cases hbuf : SREC_DATA_BUFFER_SIZE < acc.length + d.length
            · -- buffer full: the loop stops and rewinds to this line
              have hstep : srecNextChunkAux lines seg p addr acc = some (addr, acc, p) := by
                conv_lhs => rw [srecNextChunkAux]
                rw [dif_neg hend, hp]
                dsimp only
                rw [if_neg hlen0, if_neg hnorange, if_neg (by omega), if_pos hbuf]
              refine ⟨addr, p, ?_, ?_, ?_, ?_⟩
              · rw [hstep]
                have hfit : takeFit (SREC_DATA_BUFFER_SIZE - acc.length) (⟨a, d, p⟩ :: rs2) = [] := by
                  simp only [takeFit]
                  rw [if_pos (by simp only [SREC_DATA_BUFFER_SIZE] at *; omega)]
                rw [hfit]
                simp [concatPayloads]
              · rw [hre, hsplit2]
                simp only [dropFit]
                rw [if_pos (by simp only [SREC_DATA_BUFFER_SIZE] at *; omega),
                  List.cons_append]
              · intro h; exact absurd h hacc
              · intro _; rfl
            · -- the record fits: append it and continue
              have hstep : srecNextChunkAux lines seg p addr acc =
                  srecNextChunkAux lines seg (p + 1) addr (acc ++ d) := by
                conv_lhs => rw [srecNextChunkAux]
                rw [dif_neg hend, hp]
                dsimp only
                rw [if_neg hlen0, if_neg hnorange, if_neg (by omega), if_neg hbuf]
              obtain ⟨a1, q, heq, hrecs, hc0, hc1⟩ :=
                ih (lines.length - (p + 1)) (by omega) (p + 1) addr (acc ++ d) rs2 rest rfl
                  hsplit2
                  (fun x hx => hb x (List.mem_cons_of_mem _ hx))
                  (fun x hx => hbnd x (List.mem_cons_of_mem _ hx))
                  hrestpos hrge
                  (by simp only [List.length_append]; omega)
                  (fun h => absurd h (by simp [hacc]))
                  (fun _ => ⟨by
                    have := htile.2
                    simp only [List.length_append]
                    have harith : addr + (acc.length + d.length) =
                        addr + acc.length + d.length := by omega
                    rw [harith]
                    exact this, hsegaddr, by
                    simp only [List.length_append]
                    omega⟩)
              have hc : ¬(SREC_DATA_BUFFER_SIZE - acc.length < d.length) := by
                simp only [SREC_DATA_BUFFER_SIZE] at hbuf hcap ⊢
                omega
              have harith : SREC_DATA_BUFFER_SIZE - (acc ++ d).length =
                  SREC_DATA_BUFFER_SIZE - acc.length - d.length := by
                simp only [List.length_append]
                omega
              refine ⟨a1, q, ?_, ?_, ?_, ?_⟩
              · have hfit : takeFit (SREC_DATA_BUFFER_SIZE - acc.length) (⟨a, d, p⟩ :: rs2) =
                    ⟨a, d, p⟩ :: takeFit (SREC_DATA_BUFFER_SIZE - acc.length - d.length) rs2 := by
                  simp only [takeFit]
                  rw [if_neg hc]
                rw [hstep, heq, harith, hfit, concatPayloads_cons, ← List.append_assoc]
              · have hdrop : dropFit (SREC_DATA_BUFFER_SIZE - acc.length) (⟨a, d, p⟩ :: rs2) =
                    dropFit (SREC_DATA_BUFFER_SIZE - acc.length - d.length) rs2 := by
                  simp only [dropFit]
                  rw [if_neg hc]
                rw [hrecs, harith, hdrop]
              · intro h; exact absurd h hacc
              · intro _; exact hc1 (by simp [hacc])

theorem mem_of_mem_takeFit (cap : Nat) (rs : List SRecRecord) (x : SRecRecord)
    (h : x ∈ takeFit cap rs) : x ∈ rs := by
  rw [← takeFit_append_dropFit cap rs]
  exact List.mem_append_left _ h

theorem mem_of_mem_dropFit (cap : Nat) (rs : List SRecRecord) (x : SRecRecord)
    (h : x ∈ dropFit cap rs) : x ∈ rs := by
  rw [← takeFit_append_dropFit cap rs]
  exact List.mem_append_right _ h

/-- The full chunk loop on a belonging, contiguous record group `rs`
starting at address `α`, followed by out-of-range records: it succeeds
and returns chunks that concatenate to exactly the group's payload
bytes, tile the group's range, and stay inside the segment. -/
theorem collectChunks_spec (lines : List (List Char)) (seg : SRecSegment)
    (hparse : ∀ l ∈ lines, srecParseLine l ≠ none) :
    ∀ (m fuel p α : Nat) (rs rest : List SRecRecord),
    rs.length = m →
    m < fuel →
    recsFrom lines p = rs ++ rest →
    (∀ r ∈ rs, srecBelongs seg r = true) →
    (∀ r ∈ rs, 0 < r.payload.length ∧ r.payload.length ≤ 252) →
    (∀ r ∈ rest, 0 < r.payload.length) →
    headAddrGE seg rest →
    tilesFrom α rs →
    ∃ cs, srecCollectChunks lines seg fuel p = some cs ∧
      (cs.map Prod.snd).join = concatPayloads rs ∧
      chunkTiles α cs ∧
      (∀ c ∈ cs, (seg.addr ≤ c.1 ∧ c.1 + c.2.length ≤ segEnd seg) ∧ c.2 ≠ []) := by
  intro m
  induction m using Nat.strong_induction_on with
  | _ m ih =>
  intro fuel p α rs rest hm hfuel hsplit hb hbnd hrestpos hrge htiles
  cases fuel with
  | zero => omega
  | succ f =>
  obtain ⟨a1, q, heq, hrecs, hc0, hc1⟩ :=
    nextChunkAux_spec lines seg hparse (lines.length - p) p 0 [] rs rest rfl hsplit
      hb hbnd hrestpos hrge (by simp)
      (by
        intro _ r0 hr0
        cases rs with
        | nil => simp at hr0
        | cons r rs2 =>
          simp only [List.head?_cons, Option.mem_some_iff] at hr0
          rw [← hr0, show r.addr = α from htiles.1]
          exact htiles)
      (fun h => absurd rfl h)
  simp only [List.length_nil, Nat.sub_zero, List.nil_append] at heq hrecs
  have hnext : srecSegmentGetNextData lines seg p =
      some (a1, concatPayloads (takeFit SREC_DATA_BUFFER_SIZE rs), q) := heq
  cases rs with
  | nil =>
    -- nothing left: the next call reports End immediately
    refine ⟨[], ?_, ?_, ?_, ?_⟩
    · simp only [srecCollectChunks]
      rw [hnext]
      simp [takeFit, concatPayloads]
    · simp [concatPayloads]
    · exact trivial
    · intro c hc; simp at hc
  | cons r rs2 =>
    have hbr := hbnd r (List.mem_cons_self _ _)
    have hfitcons : takeFit SREC_DATA_BUFFER_SIZE (r :: rs2) =
        r :: takeFit (SREC_DATA_BUFFER_SIZE - r.payload.length) rs2 := by
      simp only [takeFit]
      rw [if_neg (by simp only [SREC_DATA_BUFFER_SIZE]; omega)]
    have hfitlen : 0 < (concatPayloads (takeFit SREC_DATA_BUFFER_SIZE (r :: rs2))).length := by
      rw [hfitcons, concatPayloads_cons, List.length_append]
      omega
    have hdroplen : (dropFit SREC_DATA_BUFFER_SIZE (r :: rs2)).length < (r :: rs2).length := by
      have hsp := takeFit_append_dropFit SREC_DATA_BUFFER_SIZE (r :: rs2)
      have := congrArg List.length hsp
      rw [List.length_append, hfitcons] at this
      simp only [List.length_cons] at this ⊢
      omega
    have htsplit : tilesFrom α (takeFit SREC_DATA_BUFFER_SIZE (r :: rs2)) ∧
        tilesFrom (α + totalLen (takeFit SREC_DATA_BUFFER_SIZE (r :: rs2)))
          (dropFit SREC_DATA_BUFFER_SIZE (r :: rs2)) := by
      rw [← tilesFrom_append]
      rw [takeFit_append_dropFit]
      exact htiles
    obtain ⟨cs2, hcoll2, hjoin2, htiles2, hbounds2⟩ :=
      ih (dropFit SREC_DATA_BUFFER_SIZE (r :: rs2)).length (by omega) f q
        (α + totalLen (takeFit SREC_DATA_BUFFER_SIZE (r :: rs2)))
        (dropFit SREC_DATA_BUFFER_SIZE (r :: rs2)) rest rfl (by omega) hrecs
        (fun x hx => hb x (mem_of_mem_dropFit _ _ _ hx))
        (fun x hx => hbnd x (mem_of_mem_dropFit _ _ _ hx))
        hrestpos hrge htsplit.2
    have ha1 : a1 = α := by
      have := hc0 rfl r (by simp)
      rw [this]
      exact htiles.1
    refine ⟨(a1, concatPayloads (takeFit SREC_DATA_BUFFER_SIZE (r :: rs2))) :: cs2, ?_, ?_, ?_, ?_⟩
    · simp only [srecCollectChunks]
      rw [hnext]
      dsimp only
      rw [if_neg (by omega), hcoll2]
    · show concatPayloads (takeFit SREC_DATA_BUFFER_SIZE (r :: rs2)) ++
          (List.map Prod.snd cs2).join = concatPayloads (r :: rs2)
      rw [hjoin2, ← concatPayloads_append, takeFit_append_dropFit]
    · refine ⟨ha1, ?_⟩
      dsimp only
      rw [concatPayloads_length]
      exact htiles2
    · intro c hc
      rcases List.mem_cons.mp hc with rfl | hc2
      · have hbds := tiles_belongs_bounds seg (takeFit SREC_DATA_BUFFER_SIZE (r :: rs2)) α
          htsplit.1 (by rw [hfitcons]; simp)
          (fun x hx => hb x (mem_of_mem_takeFit _ _ _ hx))
        refine ⟨⟨?_, ?_⟩, ?_⟩
        · rw [ha1]; exact hbds.1
        · dsimp only
          rw [ha1, concatPayloads_length]
          exact hbds.2
        · dsimp only
          intro hnil
          rw [hnil] at hfitlen
          simp at hfitlen
      · exact hbounds2 c hc2

/-- The segments the open loop produces from an ascending record list,
given the segment currently being extended. -/
def runsFrom (current : SRecSegment) : List SRecRecord → List SRecSegment
  | [] => [current]
  | r :: rs =>
    if segEnd current = r.addr then
      runsFrom { current with len := current.len + r.payload.length } rs
    else current :: runsFrom ⟨r.addr, r.payload.length, r.pos⟩ rs

/-- The segments the open loop produces from an ascending record list. -/
def runsStart : List SRecRecord → List SRecSegment
  | [] => []
  | r :: rs => runsFrom ⟨r.addr, r.payload.length, r.pos⟩ rs

theorem set_append_length {α : Type} (l : List α) (a b : α) :
    (l ++ [a]).set l.length b = l ++ [b] := by
  induction l with
  | nil => rfl
  | cons x l ih =>
    simp only [List.cons_append, List.length_cons, List.set_cons_succ, ih]

theorem openAux_cons_data (l : List Char) (rest : List (List Char)) (idx a : Nat)
    (d : List Nat) (st : OpenState) (hp : srecParseLine l = some (.dataRec a d)) :
    srecFileOpenAux (l :: rest) idx st =
      srecFileOpenAux rest (idx + 1) (openStep st a d.length idx) := by
  conv_lhs => rw [srecFileOpenAux]
  rw [hp]

theorem openAux_cons_skip (l : List Char) (rest : List (List Char)) (idx : Nat)
    (st : OpenState) (hp : srecParseLine l = some .noData) :
    srecFileOpenAux (l :: rest) idx st = srecFileOpenAux rest (idx + 1) st := by
  conv_lhs => rw [srecFileOpenAux]
  rw [hp]

/-- `openStep` when the designated segment is the last one in the list. -/
theorem openStep_at_current (completed : List SRecSegment) (current : SRecSegment)
    (a n idx : Nat) :
    openStep ⟨completed ++ [current], some completed.length⟩ a n idx =
      if segEnd current = a then
        ⟨completed ++ [{ current with len := current.len + n }], some completed.length⟩
      else openStepSearch (completed ++ [current]) a n idx := by
  unfold openStep
  dsimp only
  rw [List.get?_concat_length]
  dsimp only
  split
  · rw [set_append_length]
  · rfl

/-- `openStepSearch` when no existing segment ends at the record's
address: a fresh segment is appended at the back. -/
theorem openStepSearch_none (segs : List SRecSegment) (a n idx : Nat)
    (h : ∀ s ∈ segs, segEnd s ≠ a) :
    openStepSearch segs a n idx = ⟨segs ++ [⟨a, n, idx⟩], some segs.length⟩ := by
  unfold openStepSearch
  rw [List.findIdx?_eq_none_iff.mpr (fun s hs => by simp [h s hs])]

/-- All completed segments of the gap chain end strictly before the last
segment's end. -/
theorem gapChain_spread : ∀ (l : List SRecSegment) (a : SRecSegment),
    List.Chain' (fun s t => segEnd s < t.addr) (l ++ [a]) →
    ∀ s ∈ l, segEnd s < segEnd a := by
  intro l
  induction l with
  | nil => intro a _ s hs; cases hs
  | cons x l2 ih =>
    intro a hchain s hs
    have htail : List.Chain' (fun s t => segEnd s < t.addr) (l2 ++ [a]) :=
      (List.cons_append x l2 [a] ▸ hchain).tail
    rcases List.mem_cons.mp hs with rfl | hs2
    · cases l2 with
      | nil =>
        have hr : segEnd s < a.addr := by
          rw [List.cons_append, List.nil_append] at hchain
          exact (List.chain'_cons.mp hchain).1
        have : a.addr ≤ segEnd a := Nat.le_add_right _ _
        omega
      | cons y l3 =>
        have hr : segEnd s < y.addr := by
          rw [List.cons_append, List.cons_append] at hchain
          exact (List.chain'_cons.mp hchain).1
        have hy : segEnd y < segEnd a := ih a htail y (List.mem_cons_self _ _)
        have : y.addr ≤ segEnd y := Nat.le_add_right _ _
        omega
    · exact ih a htail s hs2

/-- On an ascending record stream the open loop keeps its completed
segments untouched and turns the remaining records into `runsFrom` of
the segment under construction. -/
theorem openAux_runs : ∀ (L : List (List Char)) (idx : Nat)
    (completed : List SRecSegment) (current : SRecSegment),
    (∀ l ∈ L, srecParseLine l ≠ none) →
    List.Chain' ascRec (fileRecordsAux L idx) →
    (∀ r ∈ (fileRecordsAux L idx).head?, segEnd current ≤ r.addr) →
    List.Chain' (fun s t => segEnd s < t.addr) (completed ++ [current]) →
    ∃ cur, srecFileOpenAux L idx ⟨completed ++ [current], some completed.length⟩ =
      some ⟨completed ++ runsFrom current (fileRecordsAux L idx), cur⟩ := by
  intro L
  induction L with
  | nil =>
    intro idx completed current _ _ _ _
    exact ⟨some completed.length, by simp [srecFileOpenAux, fileRecordsAux, runsFrom]⟩
  | cons l rest ih =>
    intro idx completed current hparse hasc hfirst hgap
    have hparse2 : ∀ l2 ∈ rest, srecParseLine l2 ≠ none :=
      fun l2 hl2 => hparse l2 (List.mem_cons_of_mem _ hl2)
    cases hp : srecParseLine l with
    | none => exact absurd hp (hparse l (List.mem_cons_self _ _))
    | some pl =>
      cases pl with
      | noData =>
        rw [fileRecordsAux_cons_skip _ _ _ (Or.inr hp)] at hasc hfirst ⊢
        rw [openAux_cons_skip _ _ _ _ hp]
        exact ih (idx + 1) completed current hparse2 hasc hfirst hgap
      | dataRec a d =>
        rw [fileRecordsAux_cons_data _ _ _ _ _ hp] at hasc hfirst ⊢
        rw [openAux_cons_data _ _ _ _ _ _ hp, openStep_at_current]
        have hfirst1 : segEnd current ≤ a := by
          have := hfirst ⟨a, d, idx⟩ (by simp)
          exact this
        by_cases hfast : segEnd current = a
        · -- fast path: the record extends the current segment
          rw [if_pos hfast]
          have hrun : runsFrom current (⟨a, d, idx⟩ :: fileRecordsAux rest (idx + 1)) =
              runsFrom { current with len := current.len + d.length }
                (fileRecordsAux rest (idx + 1)) := by
            rw [runsFrom, if_pos hfast]
          rw [hrun]
          refine ih (idx + 1) completed { current with len := current.len + d.length }
            hparse2 hasc.tail ?_ ?_
          · intro r hr
            have hchain := hasc
            cases hrecs : fileRecordsAux rest (idx + 1) with
            | nil => rw [hrecs] at hr; simp at hr
            | cons r0 rs0 =>
              rw [hrecs] at hr hchain
              simp only [List.head?_cons, Option.mem_some_iff] at hr
              have hrel : ascRec ⟨a, d, idx⟩ r0 := (List.chain'_cons.mp hchain).1
              simp only [ascRec, recEnd] at hrel
              simp only [segEnd] at hfast ⊢
              subst hr
              omega
          · -- the gap chain is preserved: the base address is unchanged
            rw [List.chain'_append] at hgap ⊢
            refine ⟨hgap.1, List.chain'_singleton _, ?_⟩
            intro x hx y hy
            simp only [List.head?_cons, Option.mem_some_iff] at hy
            subst hy
            exact hgap.2.2 x hx current (by simp)
        · -- slow path: the record starts a fresh segment at the back
          rw [if_neg hfast]
          have hlt : segEnd current < a := by omega
          have hnone : ∀ s ∈ completed ++ [current], segEnd s ≠ a := by
            intro s hs
            rcases List.mem_append.mp hs with hs2 | hs2
            · have := gapChain_spread completed current hgap s hs2
              omega
            · simp only [List.mem_singleton] at hs2
              subst hs2
              exact hfast
          rw [openStepSearch_none _ _ _ _ hnone]
          have hrun : runsFrom current (⟨a, d, idx⟩ :: fileRecordsAux rest (idx + 1)) =
              current :: runsFrom ⟨a, d.length, idx⟩ (fileRecordsAux rest (idx + 1)) := by
            rw [runsFrom, if_neg hfast]
          rw [hrun]
          obtain ⟨cur, hrec⟩ := ih (idx + 1) (completed ++ [current]) ⟨a, d.length, idx⟩
            hparse2 hasc.tail
            (by
              intro r hr
              cases hrecs : fileRecordsAux rest (idx + 1) with
              | nil => rw [hrecs] at hr; simp at hr
              | cons r0 rs0 =>
                rw [hrecs] at hr hasc
                simp only [List.head?_cons, Option.mem_some_iff] at hr
                have hrel : ascRec ⟨a, d, idx⟩ r0 := (List.chain'_cons.mp hasc).1
                simp only [ascRec, recEnd] at hrel
                subst hr
                simp only [segEnd] at hrel ⊢
                omega)
            (by
              rw [List.chain'_append]
              refine ⟨hgap, List.chain'_singleton _, ?_⟩
              intro x hx y hy
              simp only [List.head?_cons, Option.mem_some_iff] at hy
              subst hy
              rw [List.getLast?_concat] at hx
              simp only [Option.mem_some_iff] at hx
              subst hx
              exact hlt)
          refine ⟨cur, ?_⟩
          rw [hrec, List.append_assoc, List.singleton_append]

/-- Starting from the empty open state, an ascending record stream
produces exactly `runsStart` of the records. -/
theorem openAux_runs_start : ∀ (L : List (List Char)) (idx : Nat),
    (∀ l ∈ L, srecParseLine l ≠ none) →
    List.Chain' ascRec (fileRecordsAux L idx) →
    ∃ cur, srecFileOpenAux L idx ⟨[], none⟩ =
      some ⟨runsStart (fileRecordsAux L idx), cur⟩ := by
  intro L
  induction L with
  | nil =>
    intro idx _ _
    exact ⟨none, by simp [srecFileOpenAux, fileRecordsAux, runsStart]⟩
  | cons l rest ih =>
    intro idx hparse hasc
    have hparse2 : ∀ l2 ∈ rest, srecParseLine l2 ≠ none :=
      fun l2 hl2 => hparse l2 (List.mem_cons_of_mem _ hl2)
    cases hp : srecParseLine l with
    | none => exact absurd hp (hparse l (List.mem_cons_self _ _))
    | some pl =>
      cases pl with
      | noData =>
        rw [fileRecordsAux_cons_skip _ _ _ (Or.inr hp)] at hasc ⊢
        rw [openAux_cons_skip _ _ _ _ hp]
        exact ih (idx + 1) hparse2 hasc
      | dataRec a d =>
        rw [fileRecordsAux_cons_data _ _ _ _ _ hp] at hasc ⊢
        rw [openAux_cons_data _ _ _ _ _ _ hp]
        have hstep : openStep ⟨[], none⟩ a d.length idx =
            ⟨[⟨a, d.length, idx⟩], some 0⟩ := rfl
        rw [hstep]
        obtain ⟨cur, hrec⟩ := openAux_runs rest (idx + 1) [] ⟨a, d.length, idx⟩
          hparse2 hasc.tail
          (by
            intro r hr
            cases hrecs : fileRecordsAux rest (idx + 1) with
            | nil => rw [hrecs] at hr; simp at hr
            | cons r0 rs0 =>
              rw [hrecs] at hr hasc
              simp only [List.head?_cons, Option.mem_some_iff] at hr
              have hrel : ascRec ⟨a, d, idx⟩ r0 := (List.chain'_cons.mp hasc).1
              simp only [ascRec, recEnd] at hrel
              subst hr
              simp only [segEnd]
              omega)
          (List.chain'_singleton _)
        refine ⟨cur, ?_⟩
        have hst : (⟨[⟨a, d.length, idx⟩], some 0⟩ : OpenState) =
            ⟨[] ++ [⟨a, d.length, idx⟩], some ([] : List SRecSegment).length⟩ := rfl
        rw [hst, hrec]
        rfl

/-- The runs built from an ascending record stream have strictly
increasing, gap-separated base addresses; the first keeps the current
segment's base. -/
theorem runsFrom_chain : ∀ (rs : List SRecRecord) (current : SRecSegment),
    List.Chain' ascRec rs →
    (∀ r ∈ rs.head?, segEnd current ≤ r.addr) →
    List.Chain' (fun s t => segEnd s < t.addr) (runsFrom current rs) ∧
    (∀ s ∈ (runsFrom current rs).head?, s.addr = current.addr) ∧
    runsFrom current rs ≠ [] := by
  intro rs
  induction rs with
  | nil =>
    intro current _ _
    exact ⟨List.chain'_singleton _, by simp [runsFrom], by simp [runsFrom]⟩
  | cons r rs2 ih =>
    intro current hasc hfirst
    have hfirst1 : segEnd current ≤ r.addr := hfirst r (by simp)
    by_cases hfast : segEnd current = r.addr
    · rw [runsFrom, if_pos hfast]
      have hih := ih { current with len := current.len + r.payload.length }
        hasc.tail
        (by
          intro r0 hr0
          cases hrecs : rs2 with
          | nil => rw [hrecs] at hr0; simp at hr0
          | cons r1 rs3 =>
            rw [hrecs] at hr0 hasc
            simp only [List.head?_cons, Option.mem_some_iff] at hr0
            have hrel : ascRec r r1 := (List.chain'_cons.mp hasc).1
            simp only [ascRec, recEnd] at hrel
            simp only [segEnd] at hfast ⊢
            subst hr0
            omega)
      exact ⟨hih.1, fun s hs => hih.2.1 s hs, hih.2.2⟩
    · rw [runsFrom, if_neg hfast]
      have hlt : segEnd current < r.addr := by omega
      have hih := ih ⟨r.addr, r.payload.length, r.pos⟩
        hasc.tail
        (by
          intro r0 hr0
          cases hrecs : rs2 with
          | nil => rw [hrecs] at hr0; simp at hr0
          | cons r1 rs3 =>
            rw [hrecs] at hr0 hasc
            simp only [List.head?_cons, Option.mem_some_iff] at hr0
            have hrel : ascRec r r1 := (List.chain'_cons.mp hasc).1
            simp only [ascRec, recEnd] at hrel
            subst hr0
            simp only [segEnd]
            omega)
      refine ⟨?_, by simp, by simp⟩
      rw [List.chain'_cons']
      refine ⟨?_, hih.1⟩
      intro y hy
      have := hih.2.1 y hy
      rw [this]
      exact hlt

/-- The segments built from an ascending record stream are already
sorted by base address. -/
theorem runsStart_sorted (rs : List SRecRecord)
    (hasc : List.Chain' ascRec rs) :
    List.Sorted segLE (runsStart rs) := by
  cases rs with
  | nil => exact List.sorted_nil
  | cons r rs2 =>
    rw [runsStart]
    have hch := (runsFrom_chain rs2 ⟨r.addr, r.payload.length, r.pos⟩
      hasc.tail
      (by
        intro r0 hr0
        cases hrecs : rs2 with
        | nil => rw [hrecs] at hr0; simp at hr0
        | cons r1 rs3 =>
          rw [hrecs] at hr0 hasc
          simp only [List.head?_cons, Option.mem_some_iff] at hr0
          have hrel : ascRec r r1 := (List.chain'_cons.mp hasc).1
          simp only [ascRec, recEnd] at hrel
          subst hr0
          simp only [segEnd]
          omega)).1
    have hle : List.Chain' segLE (runsFrom ⟨r.addr, r.payload.length, r.pos⟩ rs2) :=
      hch.imp (fun s t h => by
        simp only [segLE]
        have : s.addr ≤ segEnd s := Nat.le_add_right _ _
        omega)
    exact List.chain'_iff_pairwise.mp hle

/-- `SRecReaderFileOpen` on a file with ascending data records returns
exactly the runs, in file order (the sort is the identity). -/
theorem fileOpen_runs (lines : List (List Char))
    (hparse : ∀ l ∈ lines, srecParseLine l ≠ none)
    (hasc : List.Chain' ascRec (fileRecords lines)) :
    srecFileOpen lines = some (runsStart (fileRecords lines)) := by
  obtain ⟨cur, h⟩ := openAux_runs_start lines 0 hparse hasc
  unfold srecFileOpen
  rw [h]
  dsimp only
  congr 1
  exact List.Sorted.insertionSort_eq (runsStart_sorted _ hasc)

theorem totalLen_append (xs ys : List SRecRecord) :
    totalLen (xs ++ ys) = totalLen xs + totalLen ys := by
  simp [totalLen]

/-- The record after the head of an ascending chain starts at or past the
head's end. -/
theorem asc_head_ge (r : SRecRecord) (rs2 : List SRecRecord)
    (hasc : List.Chain' ascRec (r :: rs2)) (e : Nat) (he : e ≤ recEnd r) :
    ∀ r0 ∈ rs2.head?, e ≤ r0.addr := by
  intro r0 hr0
  cases rs2 with
  | nil => simp at hr0
  | cons r1 rs3 =>
    simp only [List.head?_cons, Option.mem_some_iff] at hr0
    have hrel : ascRec r r1 := (List.chain'_cons.mp hasc).1
    simp only [ascRec] at hrel
    subst hr0
    omega

/-- Decomposing a run: every segment that `runsFrom` emits corresponds to
a contiguous group of records tiling exactly the segment's range, with
everything after that group out of the segment's range.  `gc` is the
group of the segment currently being built. -/
theorem runsFrom_decompose : ∀ (rs : List SRecRecord) (current : SRecSegment)
    (gc : List SRecRecord),
    List.Chain' ascRec rs →
    (∀ r ∈ rs, 0 < r.payload.length) →
    (∀ r ∈ rs.head?, segEnd current ≤ r.addr) →
    gc ≠ [] →
    tilesFrom current.addr gc →
    totalLen gc = current.len →
    (∀ r0 ∈ gc.head?, r0.pos = current.fptr) →
    ∀ (i : Nat) (seg : SRecSegment), (runsFrom current rs).get? i = some seg →
    ∃ pre g post, gc ++ rs = pre ++ g ++ post ∧
      g ≠ [] ∧ tilesFrom seg.addr g ∧ totalLen g = seg.len ∧
      (∀ r0 ∈ g.head?, r0.pos = seg.fptr) ∧
      headAddrGE seg post ∧
      (∀ r ∈ post, 0 < r.payload.length) := by
  intro rs
  induction rs with
  | nil =>
    intro current gc _ _ _ hgne hgt hgl hgp i seg hget
    rw [runsFrom] at hget
    cases i with
    | zero =>
      simp only [List.get?] at hget
      injection hget with hseg
      subst hseg
      exact ⟨[], gc, [], by simp, hgne, hgt, hgl, hgp, trivial, by simp⟩
    | succ j =>
      simp only [List.get?] at hget
      cases hget
  | cons r rs2 ih =>
    intro current gc hasc hpos hfirst hgne hgt hgl hgp i seg hget
    have hfirst1 : segEnd current ≤ r.addr := hfirst r (by simp)
    have hrpos : 0 < r.payload.length := hpos r (List.mem_cons_self _ _)
    by_cases hfast : segEnd current = r.addr
    · rw [runsFrom, if_pos hfast] at hget
      obtain ⟨pre, g, post, hsp, hgne2, hgt2, hgl2, hgp2, hha, hpp⟩ :=
        ih { current with len := current.len + r.payload.length } (gc ++ [r])
          hasc.tail
          (fun x hx => hpos x (List.mem_cons_of_mem _ hx))
          (by
            refine asc_head_ge r rs2 hasc _ ?_
            simp only [segEnd, recEnd] at hfast ⊢
            omega)
          (by simp)
          (by
            rw [tilesFrom_append]
            refine ⟨hgt, ?_, trivial⟩
            rw [hgl]
            exact hfast.symm)
          (by
            rw [totalLen_append, hgl]
            simp [totalLen])
          (by
            rw [List.head?_append_of_ne_nil gc hgne]
            exact hgp)
          i seg hget
      refine ⟨pre, g, post, ?_, hgne2, hgt2, hgl2, hgp2, hha, hpp⟩
      rw [← hsp, List.append_assoc, List.singleton_append]
    · rw [runsFrom, if_neg hfast] at hget
      cases i with
      | zero =>
        simp only [List.get?] at hget
        injection hget with hseg
        subst hseg
        refine ⟨[], gc, r :: rs2, by simp, hgne, hgt, hgl, hgp, ?_, hpos⟩
        exact hfirst1
      | succ j =>
        simp only [List.get?] at hget
        obtain ⟨pre, g, post, hsp, hgne2, hgt2, hgl2, hgp2, hha, hpp⟩ :=
          ih ⟨r.addr, r.payload.length, r.pos⟩ [r]
            hasc.tail
            (fun x hx => hpos x (List.mem_cons_of_mem _ hx))
            (by
              refine asc_head_ge r rs2 hasc _ ?_
              simp only [segEnd, recEnd]
              omega)
            (by simp)
            (by exact ⟨rfl, trivial⟩)
            (by simp [totalLen])
            (by simp)
            j seg hget
        refine ⟨gc ++ pre, g, post, ?_, hgne2, hgt2, hgl2, hgp2, hha, hpp⟩
        have hgr : gc ++ (r :: rs2) = gc ++ (pre ++ g ++ post) := by
          rw [← hsp, List.singleton_append]
        rw [hgr, ← List.append_assoc, ← List.append_assoc]

/-- Two decompositions of the same list split at the same point when the
first parts satisfy a predicate the second parts' heads refute. -/
theorem append_eq_of_pred {α : Type} (P : α → Prop) : ∀ (a : List α) (b c d : List α),
    a ++ b = c ++ d → (∀ x ∈ a, P x) → (∀ x ∈ c, P x) →
    (∀ x ∈ b.head?, ¬ P x) → (∀ x ∈ d.head?, ¬ P x) → a = c ∧ b = d := by
  intro a
  induction a with
  | nil =>
    intro b c d heq _ hc hb _
    cases c with
    | nil => exact ⟨rfl, heq⟩
    | cons y c2 =>
      rw [List.nil_append] at heq
      exfalso
      refine hb y ?_ (hc y (List.mem_cons_self _ _))
      rw [heq]
      simp
  | cons x a2 ih =>
    intro b c d heq ha hc hb hd
    cases c with
    | nil =>
      rw [List.nil_append] at heq
      exfalso
      refine hd x ?_ (ha x (List.mem_cons_self _ _))
      rw [← heq]
      simp
    | cons y c2 =>
      rw [List.cons_append, List.cons_append] at heq
      obtain ⟨hxy, heq2⟩ := (List.cons.injEq _ _ _ _).mp heq
      obtain ⟨h1, h2⟩ := ih b c2 d heq2
        (fun z hz => ha z (List.mem_cons_of_mem _ hz))
        (fun z hz => hc z (List.mem_cons_of_mem _ hz)) hb hd
      exact ⟨by rw [hxy, h1], h2⟩

/-- Every record of an ascending positive chain starts at or past any
bound that holds for the head. -/
theorem ascChain_le_all : ∀ (L : List SRecRecord) (b : Nat),
    List.Chain' ascRec L → (∀ r ∈ L, 0 < r.payload.length) →
    (∀ r ∈ L.head?, b ≤ r.addr) → ∀ r ∈ L, b ≤ r.addr := by
  intro L
  induction L with
  | nil => intro b _ _ _ r hr; cases hr
  | cons x L2 ih =>
    intro b hchain hpos hhead r hr
    have hbx : b ≤ x.addr := hhead x (by simp)
    rcases List.mem_cons.mp hr with rfl | hr2
    · exact hbx
    · have hxpos : 0 < x.payload.length := hpos x (List.mem_cons_self _ _)
      refine ih b hchain.tail (fun z hz => hpos z (List.mem_cons_of_mem _ hz)) ?_ r hr2
      intro r0 hr0
      have := asc_head_ge x L2 hchain (recEnd x) (le_refl _) r0 hr0
      simp only [recEnd] at this
      omega

/-- An ascending chain of positive records is pairwise ascending. -/
theorem ascChain_pairwise : ∀ (L : List SRecRecord),
    List.Chain' ascRec L → (∀ r ∈ L, 0 < r.payload.length) →
    List.Pairwise (fun r s => recEnd r ≤ s.addr) L := by
  intro L
  induction L with
  | nil => intro _ _; exact List.Pairwise.nil
  | cons x L2 ih =>
    intro hchain hpos
    refine List.Pairwise.cons ?_ (ih hchain.tail (fun z hz => hpos z (List.mem_cons_of_mem _ hz)))
    intro s hs
    exact ascChain_le_all L2 (recEnd x) hchain.tail
      (fun z hz => hpos z (List.mem_cons_of_mem _ hz))
      (asc_head_ge x L2 hchain (recEnd x) (le_refl _)) s hs

instance : DecidableRel ascRec := fun r s => Nat.decLe (recEnd r) s.addr

instance : IsTrans SRecRecord (fun r s => r.pos < s.pos) :=
  ⟨fun _ _ _ h1 h2 => Nat.lt_trans h1 h2⟩

theorem headAddrGE_head? (seg : SRecSegment) (l : List SRecRecord)
    (h : headAddrGE seg l) : ∀ x ∈ l.head?, segEnd seg ≤ x.addr := by
  intro x hx
  cases l with
  | nil => simp at hx
  | cons y l2 =>
    simp only [List.head?_cons, Option.mem_some_iff] at hx
    subst hx
    exact h

/-- C1 (amended): on a file whose data records appear in ascending,
non-overlapping address order, opening any segment and iterating
`SRecReaderSegmentGetNextData` until End succeeds and yields exactly
`len` bytes, byte-identical to the concatenated payloads of the records
belonging to the segment in file order, each chunk lying inside
`[addr, addr+len)`, nonempty, and consecutive chunks contiguous. -/
theorem c1_amended (lines : List (List Char)) (segs : List SRecSegment)
    (hopen : srecFileOpen lines = some segs)
    (hasc : List.Chain' ascRec (fileRecords lines))
    (i : Nat) (hi : i < segs.length) :
    ∃ cs, srecCollectChunks lines (segs.get ⟨i, hi⟩) (lines.length + 1)
        (segs.get ⟨i, hi⟩).fptr = some cs ∧
      ((cs.map Prod.snd).join).length = (segs.get ⟨i, hi⟩).len ∧
      (cs.map Prod.snd).join =
        concatPayloads ((fileRecords lines).filter (srecBelongs (segs.get ⟨i, hi⟩))) ∧
      (∀ c ∈ cs, (segs.get ⟨i, hi⟩).addr ≤ c.1 ∧
        c.1 + c.2.length ≤ segEnd (segs.get ⟨i, hi⟩) ∧ c.2 ≠ []) ∧
      List.Chain' (fun c d => c.1 + c.2.length = d.1) cs := by
  have hparse : ∀ l ∈ lines, srecParseLine l ≠ none := by
    unfold srecFileOpen at hopen
    cases haux : srecFileOpenAux lines 0 ⟨[], none⟩ with
    | none => rw [haux] at hopen; cases hopen
    | some st => exact openAux_parses lines 0 _ st haux
  have hruns := fileOpen_runs lines hparse hasc
  rw [hopen] at hruns
  have hsegs : segs = runsStart (fileRecords lines) := by
    injection hruns
  have hget : segs.get? i = some (segs.get ⟨i, hi⟩) := List.get?_eq_get hi
  generalize hseg : segs.get ⟨i, hi⟩ = seg at hget ⊢
  have hposrecs : ∀ x ∈ fileRecords lines, 0 < x.payload.length :=
    fun x hx => (recsBounds lines 0 x hx).1
  have hbndrecs : ∀ x ∈ fileRecords lines, 0 < x.payload.length ∧ x.payload.length ≤ 252 :=
    recsBounds lines 0
  cases hrecast : fileRecords lines with
  | nil =>
    rw [hrecast] at hsegs
    rw [hsegs] at hi
    simp [runsStart] at hi
  | cons r rs =>
    rw [hrecast] at hposrecs hbndrecs
    have hasc2 : List.Chain' ascRec (r :: rs) := by rw [← hrecast]; exact hasc
    have hget2 : (runsFrom ⟨r.addr, r.payload.length, r.pos⟩ rs).get? i = some seg := by
      rw [hsegs, hrecast] at hget
      simpa [runsStart] using hget
    obtain ⟨pre, g, post, hsp, hgne, hgt, hgl, hgp, hha, hpp⟩ :=
      runsFrom_decompose rs ⟨r.addr, r.payload.length, r.pos⟩ [r]
        hasc2.tail
        (fun x hx => hposrecs x (List.mem_cons_of_mem _ hx))
        (asc_head_ge r rs hasc2 _ (by simp [segEnd, recEnd]))
        (by simp)
        ⟨rfl, trivial⟩
        (by simp [totalLen])
        (by simp)
        i seg hget2
    have hrec_split : fileRecords lines = pre ++ g ++ post := by
      rw [hrecast, ← List.singleton_append, hsp]
    cases g with
    | nil => exact absurd rfl hgne
    | cons g0 gt =>
    have hg0pos : g0.pos = seg.fptr := hgp g0 (by simp)
    have hg0addr : g0.addr = seg.addr := hgt.1
    -- bridge: the records from line seg.fptr onward are exactly g ++ post
    have hposchain : List.Pairwise (fun x y : SRecRecord => x.pos < y.pos)
        (fileRecords lines) :=
      List.chain'_iff_pairwise.mp (recsPosChain lines 0)
    rw [hrec_split, List.append_assoc] at hposchain
    have hprepos : ∀ x ∈ pre, x.pos < seg.fptr := by
      intro x hx
      have hcross := (List.pairwise_append.mp hposchain).2.2 x hx g0
        (List.mem_append_left _ (List.mem_cons_self _ _))
      rw [hg0pos] at hcross
      exact hcross
    have htakepos : ∀ x ∈ fileRecordsAux (lines.take seg.fptr) 0, x.pos < seg.fptr := by
      intro x hx
      have h1 := recsPos (lines.take seg.fptr) 0 x hx
      rw [List.length_take] at h1
      omega
    have hheadb : ∀ x ∈ ((g0 :: gt) ++ post).head?, ¬ x.pos < seg.fptr := by
      intro x hx
      rw [List.cons_append] at hx
      simp only [List.head?_cons, Option.mem_some_iff] at hx
      subst hx
      rw [hg0pos]
      omega
    have hheadd : ∀ x ∈ (recsFrom lines seg.fptr).head?, ¬ x.pos < seg.fptr := by
      intro x hx
      have hx2 : x ∈ recsFrom lines seg.fptr := List.mem_of_mem_head? hx
      have := recsPos (lines.drop seg.fptr) seg.fptr x hx2
      omega
    have hbridge := append_eq_of_pred (fun x => x.pos < seg.fptr) pre ((g0 :: gt) ++ post)
      (fileRecordsAux (lines.take seg.fptr) 0) (recsFrom lines seg.fptr)
      (by
        rw [← List.append_assoc, ← hrec_split]
        exact fileRecords_split lines seg.fptr)
      hprepos htakepos hheadb hheadd
    have hrecsfrom : recsFrom lines seg.fptr = (g0 :: gt) ++ post := hbridge.2.symm
    -- records of g belong to the segment, with C payload bounds
    have hbel : ∀ x ∈ g0 :: gt, srecBelongs seg x = true := by
      intro x hx
      have hw := tiles_all_within (g0 :: gt) seg.addr hgt x hx
      rw [hgl] at hw
      simp only [srecBelongs, Bool.and_eq_true, decide_eq_true_eq]
      exact ⟨hw.1, hw.2⟩
    have hmemg : ∀ x ∈ g0 :: gt, x ∈ fileRecords lines := by
      intro x hx
      rw [hrec_split]
      exact List.mem_append_left _ (List.mem_append_right _ hx)
    have hbndg : ∀ x ∈ g0 :: gt, 0 < x.payload.length ∧ x.payload.length ≤ 252 := by
      intro x hx
      have := hmemg x hx
      rw [hrecast] at this
      exact hbndrecs x this
    have hglen : (g0 :: gt).length < lines.length + 1 := by
      have h1 : (g0 :: gt).length ≤ (fileRecords lines).length := by
        rw [hrec_split]
        simp only [List.length_append]
        omega
      have h2 : (fileRecords lines).length ≤ lines.length := recsLen lines 0
      omega
    obtain ⟨cs, hcoll, hjoin, htile, hbnds⟩ :=
      collectChunks_spec lines seg hparse (g0 :: gt).length (lines.length + 1) seg.fptr
        seg.addr (g0 :: gt) post rfl hglen hrecsfrom hbel hbndg hpp hha hgt
    -- the belonging records of the file are exactly g
    have hfilter : (fileRecords lines).filter (srecBelongs seg) = g0 :: gt := by
      have hpw := ascChain_pairwise (fileRecords lines) hasc
        (fun x hx => (recsBounds lines 0 x hx).1)
      rw [hrec_split, List.append_assoc] at hpw
      have hpre_not : ∀ x ∈ pre, ¬ (srecBelongs seg x = true) := by
        intro x hx hbelx
        have hcross := (List.pairwise_append.mp hpw).2.2 x hx g0
          (List.mem_append_left _ (List.mem_cons_self _ _))
        have hxpos : 0 < x.payload.length := by
          refine hposrecs x ?_
          rw [← hrecast, hrec_split, List.append_assoc]
          exact List.mem_append_left _ hx
        simp only [srecBelongs, Bool.and_eq_true, decide_eq_true_eq] at hbelx
        simp only [recEnd] at hcross
        rw [hg0addr] at hcross
        omega
      have hpost_chain : List.Chain' ascRec post := by
        have h1 := hasc
        rw [hrecast, ← List.singleton_append, hsp] at h1
        exact (List.chain'_append.mp h1).2.1
      have hpost_not : ∀ x ∈ post, ¬ (srecBelongs seg x = true) := by
        intro x hx hbelx
        have hge : segEnd seg ≤ x.addr :=
          ascChain_le_all post (segEnd seg) hpost_chain hpp
            (headAddrGE_head? seg post hha) x hx
        have hxpos : 0 < x.payload.length := hpp x hx
        simp only [srecBelongs, Bool.and_eq_true, decide_eq_true_eq, recEnd] at hbelx
        omega
      rw [hrec_split, List.filter_append, List.filter_append]
      rw [List.filter_eq_nil.mpr hpre_not,
        List.filter_eq_self.mpr hbel,
        List.filter_eq_nil.mpr hpost_not]
      simp
    refine ⟨cs, hcoll, ?_, ?_, ?_, chunkTiles_chain cs seg.addr htile⟩
    · rw [hjoin, concatPayloads_length, hgl]
    · rw [hjoin, ← hrecast, hfilter]
    · intro c hc
      obtain ⟨⟨h1, h2⟩, h3⟩ := hbnds c hc
      exact ⟨h1, h2, h3⟩

/-- C1 counterexample: a parseable file whose records are out of address
order.  Open succeeds with a segment of 8 bytes based at 0x10000, but
iterating `SRecReaderSegmentGetNextData` on that segment stops at the
first out-of-range line and delivers only 4 of the 8 bytes before
signalling End. -/
theorem c1_counterexample :
    srecFileOpen ["S208010000AABBCCDDE8".data, "S208000000112233444D".data,
        "S208010004EEFF0011F4".data] =
      some [⟨0, 4, 1⟩, ⟨65536, 8, 0⟩] ∧
    srecCollectChunks ["S208010000AABBCCDDE8".data, "S208000000112233444D".data,
        "S208010004EEFF0011F4".data] ⟨65536, 8, 0⟩ 4 0 =
      some [(65536, [170, 187, 204, 221])] ∧
    ¬ (([((65536 : Nat), [(170 : Nat), 187, 204, 221])].map Prod.snd).join.length = 8) := by
  refine ⟨by decide, ?_, by decide⟩
  have hp0 : srecParseLine (["S208010000AABBCCDDE8".data, "S208000000112233444D".data,
      "S208010004EEFF0011F4".data].getD 0 []) =
      some (.dataRec 65536 [170, 187, 204, 221]) := by decide
  have hp1 : srecParseLine (["S208010000AABBCCDDE8".data, "S208000000112233444D".data,
      "S208010004EEFF0011F4".data].getD 1 []) =
      some (.dataRec 0 [17, 34, 51, 68]) := by decide
  have h1 : srecNextChunkAux ["S208010000AABBCCDDE8".data, "S208000000112233444D".data,
      "S208010004EEFF0011F4".data] ⟨65536, 8, 0⟩ 0 0 [] =
      srecNextChunkAux ["S208010000AABBCCDDE8".data, "S208000000112233444D".data,
        "S208010004EEFF0011F4".data] ⟨65536, 8, 0⟩ 1 65536 ([] ++ [170, 187, 204, 221]) := by
    conv_lhs => rw [srecNextChunkAux]
    rw [dif_neg (by decide), hp0]
    dsimp only
    rw [if_pos (show ([] : List Nat).length = 0 from rfl), if_neg (by decide),
      if_neg (by decide), if_neg (by decide)]
  have h2 : srecNextChunkAux ["S208010000AABBCCDDE8".data, "S208000000112233444D".data,
      "S208010004EEFF0011F4".data] ⟨65536, 8, 0⟩ 1 65536 [170, 187, 204, 221] =
      some (65536, [170, 187, 204, 221], 1) := by
    conv_lhs => rw [srecNextChunkAux]
    rw [dif_neg (by decide), hp1]
    dsimp only
    rw [if_pos (by decide), if_neg (by decide)]
  have h3 : srecNextChunkAux ["S208010000AABBCCDDE8".data, "S208000000112233444D".data,
      "S208010004EEFF0011F4".data] ⟨65536, 8, 0⟩ 1 0 [] = some (0, [], 1) := by
    conv_lhs => rw [srecNextChunkAux]
    rw [dif_neg (by decide), hp1]
    dsimp only
    rw [if_pos (show ([] : List Nat).length = 0 from rfl), if_pos (by decide)]
  have hn1 : srecSegmentGetNextData ["S208010000AABBCCDDE8".data, "S208000000112233444D".data,
      "S208010004EEFF0011F4".data] ⟨65536, 8, 0⟩ 0 =
      some (65536, [170, 187, 204, 221], 1) := by
    unfold srecSegmentGetNextData
    rw [h1, List.nil_append]
    exact h2
  have hn2 : srecSegmentGetNextData ["S208010000AABBCCDDE8".data, "S208000000112233444D".data,
      "S208010004EEFF0011F4".data] ⟨65536, 8, 0⟩ 1 = some (0, [], 1) := by
    unfold srecSegmentGetNextData
    exact h3
  have hc2 : srecCollectChunks ["S208010000AABBCCDDE8".data, "S208000000112233444D".data,
      "S208010004EEFF0011F4".data] ⟨65536, 8, 0⟩ 3 1 = some [] := by
    show srecCollectChunks ["S208010000AABBCCDDE8".data, "S208000000112233444D".data,
      "S208010004EEFF0011F4".data] ⟨65536, 8, 0⟩ (2 + 1) 1 = some []
    conv_lhs => rw [srecCollectChunks]
    rw [hn2]
    dsimp only
    rw [if_pos (show ([] : List Nat).length = 0 from rfl)]
  show srecCollectChunks ["S208010000AABBCCDDE8".data, "S208000000112233444D".data,
    "S208010004EEFF0011F4".data] ⟨65536, 8, 0⟩ (3 + 1) 0 = some [(65536, [170, 187, 204, 221])]
  conv_lhs => rw [srecCollectChunks]
  rw [hn1]
  dsimp only
  rw [if_neg (by decide), hc2]

/-- C1 witness: the amended theorem applied to a two-record ascending
file at segment index 0. -/
theorem c1_witness :
    srecFileOpen ["S10500000102F7".data, "S1050004AABB91".data] =
      some [⟨0, 2, 0⟩, ⟨4, 2, 1⟩] ∧
    List.Chain' ascRec (fileRecords ["S10500000102F7".data, "S1050004AABB91".data]) ∧
    ∃ cs, srecCollectChunks ["S10500000102F7".data, "S1050004AABB91".data] ⟨0, 2, 0⟩ 3 0 =
        some cs ∧
      ((cs.map Prod.snd).join).length = 2 ∧
      (cs.map Prod.snd).join =
        concatPayloads ((fileRecords ["S10500000102F7".data, "S1050004AABB91".data]).filter
          (srecBelongs ⟨0, 2, 0⟩)) ∧
      (∀ c ∈ cs, 0 ≤ c.1 ∧ c.1 + c.2.length ≤ segEnd ⟨0, 2, 0⟩ ∧ c.2 ≠ []) ∧
      List.Chain' (fun c d => c.1 + c.2.length = d.1) cs :=
  ⟨by decide,
    by
      have hrecs : fileRecords ["S10500000102F7".data, "S1050004AABB91".data] =
          [⟨0, [1, 2], 0⟩, ⟨4, [170, 187], 1⟩] := by decide
      rw [hrecs]
      exact List.chain'_cons.mpr ⟨by decide, List.chain'_singleton _⟩,
    c1_amended ["S10500000102F7".data, "S1050004AABB91".data] [⟨0, 2, 0⟩, ⟨4, 2, 1⟩]
      (by decide)
      (by
        have hrecs : fileRecords ["S10500000102F7".data, "S1050004AABB91".data] =
            [⟨0, [1, 2], 0⟩, ⟨4, [170, 187], 1⟩] := by decide
        rw [hrecs]
        exact List.chain'_cons.mpr ⟨by decide, List.chain'_singleton _⟩)
      0 (by decide)⟩
